import Mathlib

/-!
Verification development for the `compile_css.py` CSS compiler
(`RobustCSSCompiler`).  The Python program is shallowly embedded: the
tinycss2 parser is treated as a black box producing parse nodes
(`Node`, `DeclNode`), and every processing / output-generation step of
the compiler itself is translated into an executable Lean function.
Python `OrderedDict`s are modelled as association lists with
insert-or-overwrite-in-place semantics, Python string operations are
modelled by structurally recursive functions over `List Char`, and the
two `re` patterns used by the compiler are modelled by explicit
scanning functions.
-/

namespace CSSCompiler

/-! ## Python string primitives, modelled over `List Char` -/

/-- Whitespace characters recognised by Python `str.strip` / `str.split`
and by the regex class `\s` (ASCII range). -/
def isWsChar (c : Char) : Bool :=
  c == ' ' || c == '\t' || c == '\n' || c == '\r' || c == '\x0b' || c == '\x0c'

/-- Python `str.strip()` on a character list. -/
def trimList (l : List Char) : List Char :=
  ((l.dropWhile isWsChar).reverse.dropWhile isWsChar).reverse

/-- Python `str.strip()`. -/
def pyStrip (s : String) : String := String.mk (trimList s.data)

/-- Python `str.lower()` (ASCII letters). -/
def pyLower (s : String) : String := String.mk (s.data.map Char.toLower)

/-- `p` occurs as a contiguous sublist of `s` (Python `p in s`). -/
def listContains (s p : List Char) : Bool :=
  if p.isPrefixOf s then true
  else
    match s with
    | [] => false
    | _ :: t => listContains t p

/-- Python `p in s` for strings. -/
def containsSubstr (s p : String) : Bool := listContains s.data p.data

/-- Python `s.startswith(p)`. -/
def strStartsWith (s p : String) : Bool := p.data.isPrefixOf s.data

/-- Fuel-driven core of Python `str.replace` (all occurrences, left to
right, non-overlapping); the fuel is the input length, which bounds the
number of steps. -/
def replaceFuel (pat rep : List Char) : Nat → List Char → List Char
  | 0, s => s
  | _ + 1, [] => []
  | fuel + 1, c :: rest =>
      if !pat.isEmpty && pat.isPrefixOf (c :: rest) then
        rep ++ replaceFuel pat rep fuel ((c :: rest).drop pat.length)
      else
        c :: replaceFuel pat rep fuel rest

/-- Python `s.replace(pat, rep)`. -/
def pyReplace (s pat rep : String) : String :=
  String.mk (replaceFuel pat.data rep.data s.data.length s.data)

/-- `serialize_tokens`: the compiler post-processes every serialized
token sequence with `.replace('/**/', '')`. -/
def cleanTok (s : String) : String := pyReplace s "/**/" ""

/-- Python `str.split()` (split on whitespace runs, dropping empties). -/
def splitWsAux : List Char → List Char → List String
  | [], cur => if cur.isEmpty then [] else [String.mk cur.reverse]
  | c :: rest, cur =>
      if isWsChar c then
        if cur.isEmpty then splitWsAux rest []
        else String.mk cur.reverse :: splitWsAux rest []
      else splitWsAux rest (c :: cur)

/-- Python `s.split('\n')` (keeps empty pieces). -/
def splitLinesAux : List Char → List Char → List String
  | [], cur => [String.mk cur.reverse]
  | c :: rest, cur =>
      if c == '\n' then String.mk cur.reverse :: splitLinesAux rest []
      else splitLinesAux rest (c :: cur)

/-- Python `s.split('\n')`. -/
def splitLines (s : String) : List String := splitLinesAux s.data []

/-- Python `s.endswith('\n')`. -/
def endsNlStr (s : String) : Bool := s.data.getLast? == some '\n'

/-- Value of a run of decimal digits. -/
def digitsToNat (l : List Char) : Nat :=
  l.foldl (fun acc c => acc * 10 + (c.toNat - '0'.toNat)) 0

/-- Match a literal at the head of the input, returning the rest. -/
def dropLit : List Char → List Char → Option (List Char)
  | [], s => some s
  | _ :: _, [] => none
  | p :: ps, c :: cs => if c == p then dropLit ps cs else none

/-! ## Ordered dictionaries as association lists -/

/-- Lookup in an association list (first matching key). -/
def lookupOD {α : Type} : List (String × α) → String → Option α
  | [], _ => none
  | kv :: rest, k => if kv.1 == k then some kv.2 else lookupOD rest k

/-- Python `d[k] = v` on an `OrderedDict`: overwrite in place if the key
exists, otherwise append at the end. -/
def insertOD {α : Type} : List (String × α) → String → α → List (String × α)
  | [], k, v => [(k, v)]
  | kv :: rest, k, v => if kv.1 == k then (k, v) :: rest else kv :: insertOD rest k v

/-! ## Data model -/

/-- `CSSRule`: a selector plus an ordered property map. -/
structure CSSRule where
  selector : String
  properties : List (String × String)
deriving Repr, DecidableEq

/-- `CSSRule.__init__`. -/
def mkRule (sel : String) : CSSRule := ⟨pyStrip sel, []⟩

/-- `CSSRule.add_property`. -/
def addProperty (r : CSSRule) (prop value : String) : CSSRule :=
  { r with properties := insertOD r.properties (pyStrip prop) (pyStrip value) }

/-- `CSSRule.merge_with` (the other rule's properties overwrite). -/
def mergeWith (r other : CSSRule) : CSSRule :=
  { r with properties := other.properties.foldl (fun ps pv => insertOD ps pv.1 pv.2) r.properties }

/-- `CSSRule.to_css`. -/
def toCss (r : CSSRule) (indent : String) : String :=
  if r.properties.isEmpty then ""
  else
    String.intercalate "\n"
      ((r.selector ++ " \x7b") ::
        (r.properties.map (fun pv => indent ++ pv.1 ++ ": " ++ pv.2 ++ ";") ++ ["\x7d"]))

/-- One entry of `self.at_rules`; keyframes entries carry a `name` key. -/
structure AtEntry where
  keyword : String
  name : Option String
  content : String
deriving Repr, DecidableEq

/-- The compiler's statistics counters. -/
structure Stats where
  rulesParsed : Nat
  selectorsSplit : Nat
  propertiesMerged : Nat
  atRules : Nat
  mediaQueries : Nat
  parseErrors : Nat
deriving Repr, DecidableEq

def initStats : Stats := ⟨0, 0, 0, 0, 0, 0⟩

/-- The compiler's mutable storage: `self.rules`, `self.at_rules`,
`self.media_queries` and `self.stats`. -/
structure CState where
  rules : List (String × CSSRule)
  atRules : List AtEntry
  mediaQueries : List (String × List (String × CSSRule))
  stats : Stats
deriving Repr, DecidableEq

def initState : CState := ⟨[], [], [], initStats⟩

/-- A declaration-list item as produced by
`tinycss2.parse_declaration_list`: either a declaration (with its
`name`, serialized value text, and `important` flag) or an error node. -/
inductive DeclNode where
  | decl (name value : String) (important : Bool)
  | err
deriving Repr

/-- A stylesheet node as produced by `tinycss2.parse_stylesheet`:
a qualified rule (prelude text and declaration block), an at-rule
(its lowercased keyword, prelude text, re-parsed content nodes, and
the `serialize_node` text), or a parse error. -/
inductive Node where
  | qualified (preludeText : String) (declBlock : List DeclNode)
  | atRule (keyword preludeText : String) (content : Option (List Node)) (serialized : String)
  | err

/-! ## `split_selectors` -/

/-- The character scan of `split_selectors`: `prev` is the previous
character of the input (for the backslash-escape test), `inStr`/`qc`
the string-literal state, `depth` the unified bracket depth, `current`
the reversed buffer of the selector being accumulated. -/
def splitSelAuxImpl : List Char → Option Char → Bool → Option Char → Int → List Char → List String
  | [], _, _, _, _, current =>
      let sel := pyStrip (String.mk current.reverse)
      if sel == "" then [] else [sel]
  | c :: rest, prev, inStr, qc, depth, current =>
      let isQuote := (c == '"' || c == '\'') && (prev == none || prev != some '\\')
      let inStr2 := if isQuote then (if !inStr then true else if some c == qc then false else inStr) else inStr
      let qc2 := if isQuote then (if !inStr then some c else if some c == qc then none else qc) else qc
      if inStr2 then splitSelAuxImpl rest (some c) inStr2 qc2 depth (c :: current)
      else if c == '(' || c == '[' || c == '\x7b' then
        splitSelAuxImpl rest (some c) inStr2 qc2 (depth + 1) (c :: current)
      else if c == ')' || c == ']' || c == '\x7d' then
        splitSelAuxImpl rest (some c) inStr2 qc2 (depth - 1) (c :: current)
      else if c == ',' && depth == 0 then
        let sel := pyStrip (String.mk current.reverse)
        if sel == "" then splitSelAuxImpl rest (some c) inStr2 qc2 depth []
        else sel :: splitSelAuxImpl rest (some c) inStr2 qc2 depth []
      else splitSelAuxImpl rest (some c) inStr2 qc2 depth (c :: current)

/-- `RobustCSSCompiler.split_selectors`. -/
def splitSelectors (selector : String) : List String :=
  splitSelAuxImpl selector.data none false none 0 []

/-- Reference splitter: the same scan, but emitting every piece between
qualifying commas verbatim (untrimmed, empties kept).  A comma is a
split point exactly when bracket depth is 0 and no string literal is
open. -/
def splitSelAuxRaw : List Char → Option Char → Bool → Option Char → Int → List Char → List (List Char)
  | [], _, _, _, _, current => [current.reverse]
  | c :: rest, prev, inStr, qc, depth, current =>
      let isQuote := (c == '"' || c == '\'') && (prev == none || prev != some '\\')
      let inStr2 := if isQuote then (if !inStr then true else if some c == qc then false else inStr) else inStr
      let qc2 := if isQuote then (if !inStr then some c else if some c == qc then none else qc) else qc
      if inStr2 then splitSelAuxRaw rest (some c) inStr2 qc2 depth (c :: current)
      else if c == '(' || c == '[' || c == '\x7b' then
        splitSelAuxRaw rest (some c) inStr2 qc2 (depth + 1) (c :: current)
      else if c == ')' || c == ']' || c == '\x7d' then
        splitSelAuxRaw rest (some c) inStr2 qc2 (depth - 1) (c :: current)
      else if c == ',' && depth == 0 then
        current.reverse :: splitSelAuxRaw rest (some c) inStr2 qc2 depth []
      else splitSelAuxRaw rest (some c) inStr2 qc2 depth (c :: current)

/-- The pieces of `selector` between depth-0, unquoted commas,
untrimmed and with empties kept. -/
def splitSelRaw (selector : String) : List String :=
  (splitSelAuxRaw selector.data none false none 0 []).map String.mk

/-! ## Declaration parsing and rule storage -/

/-- The stored value of a declaration: serialized value text, cleaned,
stripped, with ` !important` re-appended when the flag is set. -/
def mkDeclValue (v : String) (imp : Bool) : String :=
  let value := pyStrip (cleanTok v)
  if imp then value ++ " !important" else value

/-- `parse_declaration_block`: the ordered property map (keyed by
`lower_name`) and the number of error items encountered. -/
def parseDeclarationBlock (ds : List DeclNode) : List (String × String) × Nat :=
  ds.foldl
    (fun acc d =>
      match d with
      | .decl n v imp => (insertOD acc.1 (pyLower n) (mkDeclValue v imp), acc.2)
      | .err => (acc.1, acc.2 + 1))
    ([], 0)

/-- `rule.add_property` applied for each parsed property. -/
def applyProps (r : CSSRule) (props : List (String × String)) : CSSRule :=
  props.foldl (fun r pv => addProperty r pv.1 pv.2) r

/-- The per-selector body of `process_qualified_rule`'s loop: strip the
selector, skip it if empty, bump `selectors_split`, create the rule if
missing, and add every property (bumping `properties_merged`). -/
def addSelToDict (d : List (String × CSSRule)) (stats : Stats) (sel : String)
    (props : List (String × String)) : List (String × CSSRule) × Stats :=
  let s := pyStrip sel
  if s == "" then (d, stats)
  else
    let stats1 := { stats with selectorsSplit := stats.selectorsSplit + 1 }
    let r0 := match lookupOD d s with
      | some r => r
      | none => mkRule s
    let r1 := applyProps r0 props
    (insertOD d s r1, { stats1 with propertiesMerged := stats1.propertiesMerged + props.length })

/-- The selector loop of `process_qualified_rule` over one target dict. -/
def processSelList (d : List (String × CSSRule)) (stats : Stats) (sels : List String)
    (props : List (String × String)) : List (String × CSSRule) × Stats :=
  sels.foldl (fun acc sel => addSelToDict acc.1 acc.2 sel props) (d, stats)

/-- `RobustCSSCompiler.process_qualified_rule`.  A `media_condition`
that is `None` or the empty string targets `self.rules` (Python
truthiness of `if media_condition`); otherwise the per-condition dict
obtained by `setdefault`. -/
def processQualifiedRule (st : CState) (selText : String) (ds : List DeclNode)
    (mediaCondition : Option String) : CState :=
  let st1 := { st with stats := { st.stats with rulesParsed := st.stats.rulesParsed + 1 } }
  let selector := pyStrip (cleanTok selText)
  if selector == "" then st1
  else
    let pd := parseDeclarationBlock ds
    let st2 := { st1 with stats := { st1.stats with parseErrors := st1.stats.parseErrors + pd.2 } }
    if pd.1.isEmpty then st2
    else
      let sels := splitSelectors selector
      match mediaCondition with
      | none =>
          let fs := processSelList st2.rules st2.stats sels pd.1
          { st2 with rules := fs.1, stats := fs.2 }
      | some c =>
          if c == "" then
            let fs := processSelList st2.rules st2.stats sels pd.1
            { st2 with rules := fs.1, stats := fs.2 }
          else
            let mq0 := if st2.mediaQueries.any (fun kv => kv.1 == c) then st2.mediaQueries
                       else st2.mediaQueries ++ [(c, [])]
            let fs := processSelList ((lookupOD mq0 c).getD []) st2.stats sels pd.1
            { st2 with mediaQueries := insertOD mq0 c fs.1, stats := fs.2 }

/-- Replace the content of the first keyframes entry with the given
name (the `next(...)` lookup followed by in-place mutation). -/
def replaceKF : List AtEntry → String → String → List AtEntry
  | [], _, _ => []
  | ar :: rest, n, c =>
      if ar.keyword == "keyframes" && ar.name == some n then
        { ar with content := c } :: rest
      else ar :: replaceKF rest n c

/-- `RobustCSSCompiler.process_at_rule`. -/
def processAtRule (st : CState) (keyword preludeText : String)
    (content : Option (List Node)) (serialized : String) : CState :=
  if keyword == "media" then
    let st1 := { st with stats := { st.stats with mediaQueries := st.stats.mediaQueries + 1 } }
    let cond := pyStrip (cleanTok preludeText)
    (content.getD []).foldl
      (fun s n =>
        match n with
        | .qualified selT ds => processQualifiedRule s selT ds (some cond)
        | _ => s)
      st1
  else if keyword == "keyframes" then
    let st1 := { st with stats := { st.stats with atRules := st.stats.atRules + 1 } }
    let name := pyStrip (cleanTok preludeText)
    if st1.atRules.any (fun ar => ar.keyword == "keyframes" && ar.name == some name) then
      { st1 with atRules := replaceKF st1.atRules name serialized }
    else
      { st1 with atRules := st1.atRules ++ [⟨keyword, some name, serialized⟩] }
  else
    let st1 := { st with stats := { st.stats with atRules := st.stats.atRules + 1 } }
    { st1 with atRules := st1.atRules ++ [⟨keyword, none, serialized⟩] }

/-- `RobustCSSCompiler.process_node`. -/
def processNode (st : CState) (n : Node) (mediaCondition : Option String) : CState :=
  match n with
  | .qualified selT ds => processQualifiedRule st selT ds mediaCondition
  | .atRule kw prel content ser => processAtRule st kw prel content ser
  | .err => { st with stats := { st.stats with parseErrors := st.stats.parseErrors + 1 } }

/-- Fold of `process_node` over a node list. -/
def processNodes (st : CState) (nodes : List Node) : CState :=
  nodes.foldl (fun st n => processNode st n none) st

/-- `RobustCSSCompiler.process_stylesheet` starting from a fresh
compiler. -/
def processStylesheet (nodes : List Node) : CState := processNodes initState nodes

/-! ## `sort_rules` -/

def dangerousPatterns : List String :=
  [":link", ":visited", ":hover", ":focus", ":active", ":first-child", ":last-child", ":nth-"]

/-- `is_dangerous` inside `sort_rules`. -/
def isDangerous (selector : String) : Bool :=
  dangerousPatterns.any (fun p => containsSubstr selector p)

/-- The comparison used by `sorted(..., key=lambda x: x[0].lower())`:
dictionary items ordered by the lowercased selector.  Python string
comparison is code-point lexicographic, which is exactly the order on
`String` (lexicographic on `data`). -/
def alphaLe {α : Type} (a b : String × α) : Prop := pyLower a.1 ≤ pyLower b.1

instance {α : Type} : DecidableRel (alphaLe (α := α)) :=
  fun a b => inferInstanceAs (Decidable (pyLower a.1 ≤ pyLower b.1))

instance {α : Type} : IsTotal (String × α) alphaLe :=
  ⟨fun a b => le_total (pyLower a.1) (pyLower b.1)⟩

instance {α : Type} : IsTrans (String × α) alphaLe :=
  ⟨fun _ _ _ h1 h2 => le_trans h1 h2⟩

/-- Python's stable `sorted` by lowercased key. -/
def sortDictAlpha {α : Type} (d : List (String × α)) : List (String × α) :=
  List.insertionSort alphaLe d

/-- Rearrangement applied by `sort_rules` in safe mode to one scope's
dict: dangerous selectors first in source order, then the safe
selectors sorted alphabetically. -/
def applySafeSort (d : List (String × CSSRule)) : List (String × CSSRule) :=
  d.filter (fun kv => isDangerous kv.1) ++ sortDictAlpha (d.filter (fun kv => !isDangerous kv.1))

/-- `RobustCSSCompiler.sort_rules`. -/
def sortRules (safeMode : Bool) (st : CState) : CState :=
  if safeMode then
    { st with
      rules := applySafeSort st.rules,
      mediaQueries := st.mediaQueries.map (fun kv => (kv.1, applySafeSort kv.2)) }
  else
    { st with
      rules := sortDictAlpha st.rules,
      mediaQueries := st.mediaQueries.map (fun kv => (kv.1, sortDictAlpha kv.2)) }

/-! ## The two `re` patterns of `generate_output` -/

/-- Try `max-width:\s*(\d+)` anchored at the current position. -/
def tryLitDigits (lit : List Char) (l : List Char) : Option Nat :=
  match dropLit lit l with
  | none => none
  | some r =>
      let ds := (r.dropWhile isWsChar).takeWhile Char.isDigit
      if ds.isEmpty then none else some (digitsToNat ds)

/-- `re.search(r'max-width:\s*(\d+)', c)`: earliest position at which
the whole pattern matches. -/
def searchMaxAux : List Char → Option Nat
  | [] => none
  | c :: rest =>
      match tryLitDigits "max-width:".data (c :: rest) with
      | some w => some w
      | none => searchMaxAux rest

def searchMaxWidth (c : String) : Option Nat := searchMaxAux c.data

/-- One position of `re.search(r'(max-width|min-width):\s*(\d+)', c)`:
try the `max-width` alternative first, then `min-width`. -/
def tryWidthAt (l : List Char) : Option (Bool × Nat) :=
  match tryLitDigits "max-width:".data l with
  | some w => some (true, w)
  | none =>
      match tryLitDigits "min-width:".data l with
      | some w => some (false, w)
      | none => none

def searchWidthAux : List Char → Option (Bool × Nat)
  | [] => none
  | c :: rest =>
      match tryWidthAt (c :: rest) with
      | some r => some r
      | none => searchWidthAux rest

/-- `re.search(r'(max-width|min-width):\s*(\d+)', c)` with which
alternative matched (`true` for `max-width`) and the width. -/
def searchWidthKey (c : String) : Option (Bool × Nat) := searchWidthAux c.data

/-- The sort key of a media condition inside a width section:
`-width` for `max-width`, `width` for `min-width`, `0` when no width is
extractable. -/
def sortKeyOfCond (c : String) : Int :=
  match searchWidthKey c with
  | some (isMax, w) => if isMax then -(w : Int) else (w : Int)
  | none => 0

/-- `re.match(r'@keyframes\s+(\S+)', content)`: the fallback name
extraction from an at-rule's serialized content. -/
def kfFallbackName (content : String) : String :=
  match dropLit "@keyframes".data content.data with
  | none => ""
  | some r =>
      if (r.takeWhile isWsChar).isEmpty then ""
      else
        let nm := (r.dropWhile isWsChar).takeWhile (fun c => !isWsChar c)
        if nm.isEmpty then "" else String.mk nm

/-- `re.sub(r'\n{3,}', '\n\n', s)`: collapse every maximal newline run
of length `n` to `min n 2` newlines. -/
def collapseAux : List Char → Nat → List Char
  | [], n => List.replicate (min n 2) '\n'
  | c :: cs, n =>
      if c == '\n' then collapseAux cs (n + 1)
      else List.replicate (min n 2) '\n' ++ c :: collapseAux cs 0

def collapseBlankLines (s : String) : String := String.mk (collapseAux s.data 0)

/-! ## `generate_output` -/

/-- The normalization of a media condition: whitespace runs collapsed
to single spaces, then spacing around `:`, `(`, `)` removed. -/
def normalizeCond (c : String) : String :=
  let joined := String.intercalate " " (splitWsAux c.data [])
  pyReplace (pyReplace (pyReplace (pyReplace (pyReplace (pyReplace
    joined " :" ":") ": " ":") " (" "(") "( " "(") " )" ")") ") " ")"

/-- Merge media scopes whose normalized condition strings coincide;
colliding selectors are merged with `merge_with` (the later rule's
properties overwrite). -/
def mergeMediaQueries (mq : List (String × List (String × CSSRule))) :
    List (String × List (String × CSSRule)) :=
  mq.foldl
    (fun merged kv =>
      let n := normalizeCond kv.1
      let m0 := if merged.any (fun e => e.1 == n) then merged else merged ++ [(n, [])]
      let cur := kv.2.foldl
        (fun d sr =>
          match lookupOD d sr.1 with
          | some r => insertOD d sr.1 (mergeWith r sr.2)
          | none => d ++ [(sr.1, sr.2)])
        ((lookupOD m0 n).getD [])
      insertOD m0 n cur)
    []

/-- The six classification buckets of `generate_output`. -/
inductive MediaGroup where
  | desktop | tablet | mobile | printMedia | preference | other
deriving Repr, DecidableEq

/-- The `if/elif` classification of a normalized media condition. -/
def classifyCondition (c : String) : MediaGroup :=
  if containsSubstr c "print" then .printMedia
  else if containsSubstr c "prefers-" then .preference
  else if containsSubstr c "max-width" then
    match searchMaxWidth c with
    | some w => if w ≤ 768 then .mobile else if w ≤ 1024 then .tablet else .other
    | none => .other
  else if containsSubstr c "min-width" && !containsSubstr c "max-width" then .desktop
  else .other

/-- One group's dict: the single-pass `if/elif` dispatch sends each
condition to exactly one bucket, in encounter order, so each bucket is
the classification filter of the merged dict. -/
def bucketOf (merged : List (String × List (String × CSSRule))) (g : MediaGroup) :
    List (String × List (String × CSSRule)) :=
  merged.filter (fun kv => classifyCondition kv.1 == g)

/-- The ordering of `sorted_queries.sort(key=lambda x: x[0])`. -/
def widthLe {α : Type} (a b : Int × α) : Prop := a.1 ≤ b.1

instance {α : Type} : DecidableRel (widthLe (α := α)) :=
  fun a b => inferInstanceAs (Decidable (a.1 ≤ b.1))

instance {α : Type} : IsTotal (Int × α) widthLe := ⟨fun a b => le_total a.1 b.1⟩

instance {α : Type} : IsTrans (Int × α) widthLe := ⟨fun _ _ _ h1 h2 => le_trans h1 h2⟩

/-- The `(sort_key, condition, rules)` triples of one width section,
sorted stably by key. -/
def sortedGroup (merged : List (String × List (String × CSSRule))) (g : MediaGroup) :
    List (Int × String × List (String × CSSRule)) :=
  List.insertionSort widthLe
    ((bucketOf merged g).map (fun kv => (sortKeyOfCond kv.1, kv.1, kv.2)))

/-- Emission of one rule inside a `@media` block: the `to_css` lines
with eight-space inner indent, each non-blank line cleaned and emitted
with a four-space prefix, followed by a blank line. -/
def emitRuleInMedia (rule : CSSRule) : List String :=
  if rule.properties.isEmpty then []
  else
    (splitLines (toCss rule "        ")).filterMap
      (fun line => if pyStrip line == "" then none else some ("    " ++ cleanTok line ++ "\n"))
    ++ ["\n"]

/-- Emission of one `@media` block. -/
def emitMediaBlock (cond : String) (rules : List (String × CSSRule)) : List String :=
  ("@media " ++ cond ++ " \x7b\n") :: rules.flatMap (fun sr => emitRuleInMedia sr.2) ++ ["\x7d\n\n"]

/-- The desktop / mobile / other sections. -/
def emitWidthSections (merged : List (String × List (String × CSSRule))) : List String :=
  ([("--- DESKTOP ---", MediaGroup.desktop), ("--- MOBILE ---", MediaGroup.mobile),
    ("--- AUTRES ---", MediaGroup.other)]).flatMap
    (fun sect =>
      if (bucketOf merged sect.2).isEmpty then []
      else
        ("\n/* " ++ sect.1 ++ " */\n") ::
          (sortedGroup merged sect.2).flatMap (fun t => emitMediaBlock t.2.1 t.2.2))

/-- The preference / print sections (no width sorting). -/
def emitPlainSection (header : String) (queries : List (String × List (String × CSSRule))) :
    List String :=
  if queries.isEmpty then []
  else header :: queries.flatMap (fun kv => emitMediaBlock kv.1 kv.2)

/-- The keyframes deduplication pass of `generate_output`:
`seen_keyframes` maps a name to the index of its first entry, which a
later occurrence replaces in place. -/
def dedupStep (acc : List AtEntry × List (String × Nat)) (ar : AtEntry) :
    List AtEntry × List (String × Nat) :=
  if ar.keyword == "keyframes" then
    let n0 := ar.name.getD ""
    let n := if n0 == "" then kfFallbackName ar.content else n0
    if n == "" then (acc.1 ++ [ar], acc.2)
    else
      match lookupOD acc.2 n with
      | some idx => (acc.1.set idx ar, acc.2)
      | none => (acc.1 ++ [ar], acc.2 ++ [(n, acc.1.length)])
  else (acc.1 ++ [ar], acc.2)

/-- `deduplicated_at_rules` as computed inside `generate_output`. -/
def dedupAtRules (l : List AtEntry) : List AtEntry := (l.foldl dedupStep ([], [])).1

/-- The preserved-at-rules section. -/
def emitAtRules (ars : List AtEntry) : List String :=
  if ars.isEmpty then []
  else
    "/* ===== AT-RULES PRÉSERVÉES ===== */\n" ::
      ((dedupAtRules ars).flatMap
        (fun ar =>
          let content := cleanTok ar.content
          if endsNlStr content then [content] else [content, "\n"]))
      ++ ["\n"]

def rootRulesOf (rules : List (String × CSSRule)) : List (String × CSSRule) :=
  rules.filter (fun kv => strStartsWith kv.1 ":root")

/-- The CSS-variables section. -/
def emitRoot (rules : List (String × CSSRule)) : List String :=
  let rr := rootRulesOf rules
  if rr.isEmpty then []
  else "/* ===== VARIABLES CSS ===== */\n" :: rr.map (fun kv => toCss kv.2 "    " ++ "\n\n")

def baseSelectors : List String := ["*", "html", "body"]

def baseRulesOf (rules : List (String × CSSRule)) : List (String × CSSRule) :=
  rules.filter (fun kv => baseSelectors.contains kv.1 || strStartsWith kv.1 "::")

/-- The reset/base section: `*`, `html`, `body` in that fixed order,
then the pseudo-element selectors. -/
def emitBase (rules : List (String × CSSRule)) : List String :=
  let br := baseRulesOf rules
  if br.isEmpty then []
  else
    "/* ===== RESET ET BASE ===== */\n" ::
      (baseSelectors.filterMap (fun sel => (lookupOD br sel).map (fun r => toCss r "    " ++ "\n\n"))
        ++ (br.filter (fun kv => !baseSelectors.contains kv.1)).map
            (fun kv => toCss kv.2 "    " ++ "\n\n"))

def isHeading (s : String) : Bool :=
  strStartsWith s "h1" || strStartsWith s "h2" || strStartsWith s "h3" ||
  strStartsWith s "h4" || strStartsWith s "h5" || strStartsWith s "h6"

def mainRulesOf (rules : List (String × CSSRule)) : List (String × CSSRule) :=
  rules.filter
    (fun kv =>
      !(rootRulesOf rules).any (fun e => e.1 == kv.1) &&
      !(baseRulesOf rules).any (fun e => e.1 == kv.1))

/-- The main-rules section, grouped headings / elements / classes /
ids / pseudos by the `if/elif` dispatch (each selector lands in
exactly one group, so the groups are filters in encounter order). -/
def emitMain (rules : List (String × CSSRule)) : List String :=
  let mr := mainRulesOf rules
  if mr.isEmpty then []
  else
    let headings := mr.filter (fun kv => isHeading kv.1)
    let classes := mr.filter (fun kv => !isHeading kv.1 && strStartsWith kv.1 ".")
    let ids := mr.filter
      (fun kv => !isHeading kv.1 && !strStartsWith kv.1 "." && strStartsWith kv.1 "#")
    let pseudos := mr.filter
      (fun kv => !isHeading kv.1 && !strStartsWith kv.1 "." && !strStartsWith kv.1 "#" &&
        containsSubstr kv.1 ":")
    let elements := mr.filter
      (fun kv => !isHeading kv.1 && !strStartsWith kv.1 "." && !strStartsWith kv.1 "#" &&
        !containsSubstr kv.1 ":")
    "/* ===== RÈGLES PRINCIPALES ===== */\n" ::
      (headings ++ elements ++ classes ++ ids ++ pseudos).map
        (fun kv => cleanTok (toCss kv.2 "    ") ++ "\n\n")

/-- The media-queries section. -/
def emitMediaSection (mq : List (String × List (String × CSSRule))) : List String :=
  if mq.isEmpty then []
  else
    let merged := mergeMediaQueries mq
    "/* ===== MEDIA QUERIES ===== */\n" ::
      (emitWidthSections merged
        ++ emitPlainSection "\n/* --- PRÉFÉRENCES UTILISATEUR --- */\n" (bucketOf merged .preference)
        ++ emitPlainSection "\n/* --- PRINT --- */\n" (bucketOf merged .printMedia))

def eqBar : String := "/* " ++ String.mk (List.replicate 50 '=') ++ " */\n"

def headerLines : List String :=
  [eqBar,
   "/* CSS COMPILÉ AVEC PARSEUR ROBUSTE */\n",
   eqBar ++ "\n"]

/-- The full `output` list of `generate_output`, joined. -/
def assembleOutput (st : CState) : String :=
  String.join
    (headerLines ++ emitAtRules st.atRules ++ emitRoot st.rules ++ emitBase st.rules
      ++ emitMain st.rules ++ emitMediaSection st.mediaQueries)

/-- The final cleanup of `generate_output`: collapse 3-or-more newline
runs, then append a newline unless one is already there. -/
def finalClean (s : String) : String :=
  let r := collapseBlankLines s
  if endsNlStr r then r else r ++ "\n"

/-- `RobustCSSCompiler.generate_output`. -/
def generateOutput (st : CState) : String := finalClean (assembleOutput st)

/-- The in-memory compilation pipeline of `compile` (file I/O and
printing abstracted away): process the parsed nodes, optionally sort,
and generate the output text. -/
def compilePipeline (alphabetical safeMode : Bool) (nodes : List Node) : String :=
  if alphabetical then generateOutput (sortRules safeMode (processStylesheet nodes))
  else generateOutput (processStylesheet nodes)

/-! ## Observation helpers -/

/-- Fuel-driven split on a substring (used only to observe the emitted
text in concrete theorems). -/
def splitOnStrFuel (pat : List Char) : Nat → List Char → List Char → List (List Char)
  | 0, s, cur => [cur.reverse ++ s]
  | _ + 1, [], cur => [cur.reverse]
  | fuel + 1, c :: rest, cur =>
      if !pat.isEmpty && pat.isPrefixOf (c :: rest) then
        cur.reverse :: splitOnStrFuel pat fuel ((c :: rest).drop pat.length) []
      else splitOnStrFuel pat fuel rest (c :: cur)

def splitOnStr (s pat : String) : List String :=
  (splitOnStrFuel pat.data s.data.length s.data []).map String.mk

/-- The conditions of the `@media` blocks of an output text, in order
of appearance. -/
def mediaCondsInOrder (out : String) : List String :=
  ((splitOnStr out "@media ").drop 1).map (fun s => (splitOnStr s " \x7b").headD "")

/-- The `--- ... ---` section headers of an output text, in order. -/
def sectionHeaders (out : String) : List String :=
  ((splitOnStr out "/* --- ").drop 1).map (fun s => (splitOnStr s " --- */").headD "")

/-- The conditions emitted as `@media` blocks by `generate_output`, in
emission order (desktop, mobile, other, preference, print). -/
def emittedConds (st : CState) : List String :=
  if st.mediaQueries.isEmpty then []
  else
    let merged := mergeMediaQueries st.mediaQueries
    (sortedGroup merged .desktop).map (fun t => t.2.1)
      ++ (sortedGroup merged .mobile).map (fun t => t.2.1)
      ++ (sortedGroup merged .other).map (fun t => t.2.1)
      ++ (bucketOf merged .preference).map (fun kv => kv.1)
      ++ (bucketOf merged .printMedia).map (fun kv => kv.1)

/-! ## Specification-side views for the claims -/

/-- `oplus a b`: `a` if present, else `b`. -/
def oplus {α : Type} : Option α → Option α → Option α
  | some v, _ => some v
  | none, b => b

/-- The value of the last entry for key `k` in an event list (later
entries dominate). -/
def lastWins : List (String × String) → String → Option String
  | [], _ => none
  | p :: ps, k => oplus (lastWins ps k) (if p.1 == k then some p.2 else none)

/-- The scope a qualified rule is stored in, given the
`media_condition` argument: `None` and `""` are falsy in Python, so
both target the top-level dict. -/
def scopeOf (mc : Option String) : Option String :=
  match mc with
  | none => none
  | some c => if c == "" then none else some c

/-- The dict of one scope in the compiler state. -/
def scopeDict (st : CState) (scope : Option String) : List (String × CSSRule) :=
  match scope with
  | none => st.rules
  | some c => (lookupOD st.mediaQueries c).getD []

/-- The stored value of property `prop` of selector `sel` in `scope`. -/
def lookupProp (st : CState) (scope : Option String) (sel prop : String) : Option String :=
  match lookupOD (scopeDict st scope) sel with
  | some r => lookupOD r.properties prop
  | none => none

/-- The raw declaration pairs of a declaration block, in source order,
as they enter `parse_declaration_block` (key `lower_name`, value after
clean/strip/`!important`). -/
def rawPairs (ds : List DeclNode) : List (String × String) :=
  ds.filterMap
    (fun d =>
      match d with
      | .decl n v imp => some (pyLower n, mkDeclValue v imp)
      | .err => none)

/-- The declaration events of a block as they are finally stored by
`add_property` (key and value stripped). -/
def rawDeclEvents (ds : List DeclNode) : List (String × String) :=
  (rawPairs ds).map (fun pv => (pyStrip pv.1, pyStrip pv.2))

/-- The declaration events a selector-list contributes to target
selector `sel`: one copy of the block's events for each split selector
that strips to `sel`. -/
def eventsOfSels (sels : List String) (sel : String) (ev : List (String × String)) :
    List (String × String) :=
  sels.flatMap (fun s => if pyStrip s == sel && pyStrip s != "" then ev else [])

/-- The declaration events one qualified rule contributes to
`(scope, sel)`. -/
def eventsOfQualified (selText : String) (ds : List DeclNode) (mc : Option String)
    (scope : Option String) (sel : String) : List (String × String) :=
  let selector := pyStrip (cleanTok selText)
  if selector == "" then []
  else if scopeOf mc = scope then eventsOfSels (splitSelectors selector) sel (rawDeclEvents ds)
  else []

/-- The declaration events one top-level node contributes to
`(scope, sel)`: qualified rules directly, media at-rules through their
qualified children, everything else nothing. -/
def eventsOfNode (n : Node) (scope : Option String) (sel : String) : List (String × String) :=
  match n with
  | .qualified selT ds => eventsOfQualified selT ds none scope sel
  | .atRule kw prel content _ =>
      if kw == "media" then
        (content.getD []).flatMap
          (fun m =>
            match m with
            | .qualified selT ds =>
                eventsOfQualified selT ds (some (pyStrip (cleanTok prel))) scope sel
            | _ => [])
      else []
  | .err => []

/-- All declaration events of a stylesheet for `(scope, sel)`, in
source order. -/
def declEvents (nodes : List Node) (scope : Option String) (sel : String) :
    List (String × String) :=
  nodes.flatMap (fun n => eventsOfNode n scope sel)

/-- Declaration names produced by tinycss2 are `lower_name` ident
tokens and carry no surrounding whitespace, so stripping the lowered
name is the identity. -/
def declNamesOk (ds : List DeclNode) : Bool :=
  ds.all
    (fun d =>
      match d with
      | .decl n _ _ => pyStrip (pyLower n) == pyLower n
      | .err => true)

/-- The parser invariant `declNamesOk` for every declaration block of
one node (top level, or the children of a media block). -/
def nodeNamesOk (n : Node) : Bool :=
  match n with
  | .qualified _ ds => declNamesOk ds
  | .atRule _ _ content _ =>
      (content.getD []).all
        (fun m =>
          match m with
          | .qualified _ ds => declNamesOk ds
          | _ => true)
  | .err => true

/-- The parser invariant `declNamesOk` for every declaration block of
a stylesheet (top level and inside media blocks). -/
def wellFormedNames (nodes : List Node) : Bool :=
  nodes.all nodeNamesOk

/-- Whether a node is an at-rule node. -/
def isAtRuleNode : Node → Bool
  | .atRule _ _ _ _ => true
  | _ => false

/-- The at-rule entries of a stylesheet in encounter order, without any
deduplication: what `self.at_rules` would receive if every entry were
appended. -/
def rawAtEntries (nodes : List Node) : List AtEntry :=
  nodes.filterMap
    (fun n =>
      match n with
      | .atRule kw prel _ ser =>
          if kw == "media" then none
          else if kw == "keyframes" then some ⟨kw, some (pyStrip (cleanTok prel)), ser⟩
          else some ⟨kw, none, ser⟩
      | _ => none)

/-- The effect of `process_at_rule` on `self.at_rules` for one
non-media entry. -/
def collectStep (acc : List AtEntry) (ar : AtEntry) : List AtEntry :=
  if ar.keyword == "keyframes" then
    if acc.any (fun e => e.keyword == "keyframes" && e.name == ar.name) then
      replaceKF acc (ar.name.getD "") ar.content
    else acc ++ [ar]
  else acc ++ [ar]

/-- The last serialized content among the keyframes entries named `n`. -/
def lastKFContent (l : List AtEntry) (n : String) : Option String :=
  ((l.filter (fun b => b.keyword == "keyframes" && b.name == some n)).getLast?).map
    (fun b => b.content)

/-- Specification-side deduplication, following the spec's words: a
keyframes entry whose name was already seen is dropped (the first
occurrence keeps its position), and a kept keyframes entry carries the
content of the *last* occurrence of its name; all other entries are
kept verbatim. -/
def specFirstLast : List String → List AtEntry → List AtEntry
  | _, [] => []
  | seen, ar :: rest =>
      if ar.keyword == "keyframes" then
        let n := ar.name.getD ""
        if seen.contains n then specFirstLast seen rest
        else
          { ar with content := (lastKFContent (ar :: rest) n).getD ar.content } ::
            specFirstLast (n :: seen) rest
      else ar :: specFirstLast seen rest

/-- Every top-level keyframes at-rule has a nonempty name (tinycss2
`@keyframes` preludes carry the animation name). -/
def kfNamesOk (nodes : List Node) : Bool :=
  nodes.all
    (fun n =>
      match n with
      | .atRule kw prel _ _ => kw != "keyframes" || pyStrip (cleanTok prel) != ""
      | _ => true)

/-- No three consecutive newline characters, scanning with the length
of the current newline run. -/
def noTripleAux : List Char → Nat → Bool
  | [], _ => true
  | c :: cs, k =>
      if c == '\n' then
        if k + 1 ≥ 3 then false else noTripleAux cs (k + 1)
      else noTripleAux cs 0

/-- The text contains no run of 3 or more consecutive newlines. -/
def noTripleNewline (s : String) : Bool := noTripleAux s.data 0

/-- `lookupPropDict d sel prop`: the stored value of `prop` under
selector `sel` in one scope dict. -/
def lookupPropDict (d : List (String × CSSRule)) (sel prop : String) : Option String :=
  match lookupOD d sel with
  | some r => lookupOD r.properties prop
  | none => none

/-- Folding `insertOD` over a pair list. -/
def foldInsert {α : Type} (init : List (String × α)) (pairs : List (String × α)) :
    List (String × α) :=
  pairs.foldl (fun a pv => insertOD a pv.1 pv.2) init

/-! ## Basic lemmas -/

theorem oplus_none_right {α : Type} (a : Option α) : oplus a none = a := by
  cases a <;> rfl

theorem oplus_assoc {α : Type} (a b c : Option α) :
    oplus (oplus a b) c = oplus a (oplus b c) := by
  cases a <;> cases b <;> rfl

theorem lookupProp_eq (st : CState) (scope : Option String) (sel prop : String) :
    lookupProp st scope sel prop = lookupPropDict (scopeDict st scope) sel prop := rfl

theorem lookupOD_insertOD {α : Type} (l : List (String × α)) (k : String) (v : α)
    (k2 : String) :
    lookupOD (insertOD l k v) k2 = if k2 = k then some v else lookupOD l k2 := by
  induction l with
  | nil =>
      simp only [insertOD, lookupOD, beq_iff_eq]
      by_cases h : k2 = k
      · simp [h]
      · simp [h, Ne.symm h]
  | cons kv rest ih =>
      simp only [insertOD]
      by_cases hk : kv.1 = k
      · simp only [hk, beq_self_eq_true, if_true, lookupOD, beq_iff_eq]
        by_cases h : k2 = k
        · simp [h]
        · simp [h, Ne.symm h]
      · simp only [beq_iff_eq, hk, if_false, lookupOD]
        by_cases h : kv.1 = k2
        · have h2 : ¬ k2 = k := fun hh => hk (h.trans hh)
          simp [h, h2]
        · simp [h, ih]

theorem lookupOD_append_single {α : Type} (l : List (String × α)) (k : String) (v : α)
    (k2 : String) :
    lookupOD (l ++ [(k, v)]) k2 =
      oplus (lookupOD l k2) (if k2 = k then some v else none) := by
  induction l with
  | nil =>
      simp only [List.nil_append, lookupOD, beq_iff_eq, oplus]
      by_cases h : k = k2
      · simp [h]
      · simp [h, Ne.symm h]
  | cons kv rest ih =>
      simp only [List.cons_append, lookupOD]
      by_cases h : kv.1 = k2
      · simp [h, oplus]
      · simp [h, ih]

theorem lastWins_append (xs ys : List (String × String)) (k : String) :
    lastWins (xs ++ ys) k = oplus (lastWins ys k) (lastWins xs k) := by
  induction xs with
  | nil => simp [lastWins, oplus_none_right]
  | cons p ps ih => simp [lastWins, ih, oplus_assoc]

theorem lookupOD_foldInsert (pairs : List (String × String))
    (init : List (String × String)) (k : String) :
    lookupOD (foldInsert init pairs) k = oplus (lastWins pairs k) (lookupOD init k) := by
  induction pairs generalizing init with
  | nil => simp [foldInsert, lastWins, oplus]
  | cons p ps ih =>
      have step : foldInsert init (p :: ps) = foldInsert (insertOD init p.1 p.2) ps := rfl
      rw [step, ih]
      simp only [lastWins, lookupOD_insertOD]
      cases hps : lastWins ps k with
      | some v => simp [oplus]
      | none =>
          simp only [oplus]
          by_cases h : k = p.1
          · simp [h, oplus]
          · rw [if_neg h]
            simp only [beq_iff_eq]
            rw [if_neg (Ne.symm h)]

theorem lastWins_eq_none (l : List (String × String)) (k : String)
    (h : ∀ pv ∈ l, pv.1 ≠ k) : lastWins l k = none := by
  induction l with
  | nil => rfl
  | cons p ps ih =>
      simp only [lastWins]
      rw [ih (fun pv hm => h pv (List.mem_cons_of_mem _ hm)),
        if_neg (by simpa [beq_iff_eq] using h p (List.mem_cons_self _ _))]
      rfl

theorem mem_insertOD {α : Type} {pv : String × α} {l : List (String × α)} {k : String}
    {v : α} (h : pv ∈ insertOD l k v) : pv = (k, v) ∨ pv ∈ l := by
  induction l with
  | nil => simpa [insertOD] using h
  | cons kv rest ih =>
      simp only [insertOD] at h
      by_cases hk : kv.1 = k
      · rw [if_pos (by simpa [beq_iff_eq] using hk)] at h
        rcases List.mem_cons.mp h with h1 | h1
        · exact Or.inl h1
        · exact Or.inr (List.mem_cons_of_mem _ h1)
      · rw [if_neg (by simpa [beq_iff_eq] using hk)] at h
        rcases List.mem_cons.mp h with h1 | h1
        · exact Or.inr (by simp [h1])
        · rcases ih h1 with h2 | h2
          · exact Or.inl h2
          · exact Or.inr (List.mem_cons_of_mem _ h2)

theorem fst_mem_insertOD {α : Type} {x : String} {l : List (String × α)} {k : String}
    {v : α} (h : x ∈ (insertOD l k v).map Prod.fst) : x ∈ l.map Prod.fst ∨ x = k := by
  rcases List.mem_map.mp h with ⟨pv, hm, hx⟩
  rcases mem_insertOD hm with h1 | h1
  · right
    rw [← hx, h1]
  · left
    exact hx ▸ List.mem_map_of_mem Prod.fst h1

theorem nodupKeys_insertOD {α : Type} {l : List (String × α)} (k : String) (v : α)
    (h : (l.map Prod.fst).Nodup) : ((insertOD l k v).map Prod.fst).Nodup := by
  induction l with
  | nil => simp [insertOD]
  | cons kv rest ih =>
      simp only [List.map_cons, List.nodup_cons] at h
      obtain ⟨h1, h2⟩ := h
      simp only [insertOD]
      by_cases hk : kv.1 = k
      · rw [if_pos (by simpa [beq_iff_eq] using hk)]
        simp only [List.map_cons, List.nodup_cons]
        exact ⟨by rw [← hk]; exact h1, h2⟩
      · rw [if_neg (by simpa [beq_iff_eq] using hk)]
        simp only [List.map_cons, List.nodup_cons]
        refine ⟨fun hmem => ?_, ih h2⟩
        rcases fst_mem_insertOD hmem with hm | hm
        · exact h1 hm
        · exact hk hm

theorem nodupKeys_foldInsert {α : Type} (pairs : List (String × α))
    (init : List (String × α)) (h : (init.map Prod.fst).Nodup) :
    ((foldInsert init pairs).map Prod.fst).Nodup := by
  induction pairs generalizing init with
  | nil => exact h
  | cons p ps ih => exact ih _ (nodupKeys_insertOD _ _ h)

theorem lastWins_eq_lookupOD {l : List (String × String)}
    (h : (l.map Prod.fst).Nodup) (k : String) : lastWins l k = lookupOD l k := by
  induction l with
  | nil => rfl
  | cons p ps ih =>
      simp only [List.map_cons, List.nodup_cons] at h
      obtain ⟨h1, h2⟩ := h
      simp only [lastWins, lookupOD]
      by_cases hk : p.1 = k
      · rw [lastWins_eq_none ps k
          (fun pv hm hkk => h1 (by rw [← hk] at hkk; exact hkk ▸ List.mem_map_of_mem Prod.fst hm))]
        simp [beq_iff_eq, hk, oplus]
      · rw [ih h2]
        simp only [beq_iff_eq, hk, if_false]
        exact oplus_none_right _

theorem lastWins_map_value (l : List (String × String)) (f : String → String)
    (k : String) :
    lastWins (l.map (fun pv => (pv.1, f pv.2))) k = (lastWins l k).map f := by
  induction l with
  | nil => rfl
  | cons p ps ih =>
      simp only [List.map_cons, lastWins, ih]
      cases lastWins ps k with
      | some v => rfl
      | none =>
          simp only [Option.map_none, oplus]
          by_cases h : p.1 = k
          · simp [h]
          · simp [h]

theorem map_stripPair_of_keysStripped (l : List (String × String))
    (h : ∀ pv ∈ l, pyStrip pv.1 = pv.1) :
    l.map (fun pv => (pyStrip pv.1, pyStrip pv.2)) =
      l.map (fun pv => (pv.1, pyStrip pv.2)) := by
  induction l with
  | nil => rfl
  | cons p ps ih =>
      simp only [List.map_cons, List.cons.injEq]
      exact ⟨by rw [h p (List.mem_cons_self _ _)],
        ih (fun pv hm => h pv (List.mem_cons_of_mem _ hm))⟩

theorem keysStripped_foldInsert {pairs init : List (String × String)}
    (hinit : ∀ pv ∈ init, pyStrip pv.1 = pv.1)
    (hp : ∀ pv ∈ pairs, pyStrip pv.1 = pv.1) :
    ∀ pv ∈ foldInsert init pairs, pyStrip pv.1 = pv.1 := by
  induction pairs generalizing init with
  | nil => exact hinit
  | cons p ps ih =>
      intro pv hm
      refine ih ?_ (fun q hq => hp q (List.mem_cons_of_mem _ hq)) pv hm
      intro q hq
      rcases mem_insertOD hq with h1 | h1
      · rw [h1]
        exact hp p (List.mem_cons_self _ _)
      · exact hinit q h1

theorem parseDeclarationBlock_fst (ds : List DeclNode) :
    (parseDeclarationBlock ds).1 = foldInsert [] (rawPairs ds) := by
  suffices h : ∀ acc : List (String × String) × Nat,
      (ds.foldl
        (fun acc d =>
          match d with
          | .decl n v imp => (insertOD acc.1 (pyLower n) (mkDeclValue v imp), acc.2)
          | .err => (acc.1, acc.2 + 1)) acc).1 = foldInsert acc.1 (rawPairs ds) by
    exact h ([], 0)
  induction ds with
  | nil => intro acc; rfl
  | cons d rest ih =>
      intro acc
      cases d with
      | decl n v imp => simpa [rawPairs, foldInsert] using ih _
      | err => simpa [rawPairs, foldInsert] using ih _

theorem applyProps_properties (r : CSSRule) (props : List (String × String)) :
    (applyProps r props).properties =
      foldInsert r.properties (props.map (fun pv => (pyStrip pv.1, pyStrip pv.2))) := by
  induction props generalizing r with
  | nil => rfl
  | cons p ps ih =>
      have step : applyProps r (p :: ps) = applyProps (addProperty r p.1 p.2) ps := rfl
      rw [step, ih]
      rfl

/-- The lookup of a stored property after one block's properties are
applied equals the last-wins view of the block's raw declaration
events, falling back to the previous value. -/
theorem lookup_applyProps (r : CSSRule) (ds : List DeclNode) (prop : String)
    (hds : declNamesOk ds = true) :
    lookupOD (applyProps r (parseDeclarationBlock ds).1).properties prop =
      oplus (lastWins (rawDeclEvents ds) prop) (lookupOD r.properties prop) := by
  have hP : ∀ pv ∈ rawPairs ds, pyStrip pv.1 = pv.1 := by
    intro pv hm
    rcases List.mem_filterMap.mp hm with ⟨d, hd, he⟩
    cases d with
    | decl n v imp =>
        simp only [Option.some.injEq] at he
        rw [← he]
        have := List.all_eq_true.mp hds _ hd
        simpa [beq_iff_eq] using this
    | err => simp at he
  rw [applyProps_properties, parseDeclarationBlock_fst, lookupOD_foldInsert]
  congr 1
  have hA : ∀ pv ∈ foldInsert [] (rawPairs ds), pyStrip pv.1 = pv.1 :=
    keysStripped_foldInsert (by simp) hP
  rw [map_stripPair_of_keysStripped _ hA, lastWins_map_value,
    lastWins_eq_lookupOD (nodupKeys_foldInsert _ _ (by simp)) prop,
    lookupOD_foldInsert]
  unfold rawDeclEvents
  rw [map_stripPair_of_keysStripped _ hP, lastWins_map_value]
  simp [lookupOD, oplus_none_right]

theorem lookupPropDict_eq_bind (d : List (String × CSSRule)) (sel prop : String) :
    lookupPropDict d sel prop =
      (lookupOD d sel).bind (fun r => lookupOD r.properties prop) := by
  unfold lookupPropDict
  cases lookupOD d sel <;> rfl

theorem lookupOD_eq_none_of_any_false {α : Type} {l : List (String × α)} {k : String}
    (h : l.any (fun kv => kv.1 == k) = false) : lookupOD l k = none := by
  induction l with
  | nil => rfl
  | cons kv rest ih =>
      simp only [List.any_cons, Bool.or_eq_false_iff] at h
      simp only [lookupOD, h.1, if_false]
      exact ih h.2

theorem insertOD_ne_nil {α : Type} (l : List (String × α)) (k : String) (v : α) :
    insertOD l k v ≠ [] := by
  cases l with
  | nil => simp [insertOD]
  | cons kv rest =>
      simp only [insertOD]
      by_cases h : kv.1 = k <;> simp [h]

theorem foldInsert_ne_nil {α : Type} (pairs : List (String × α))
    (init : List (String × α)) (h : init ≠ []) : foldInsert init pairs ≠ [] := by
  induction pairs generalizing init with
  | nil => exact h
  | cons p ps ih => exact ih _ (insertOD_ne_nil _ _ _)

theorem rawPairs_eq_nil_of_parse_nil {ds : List DeclNode}
    (h : (parseDeclarationBlock ds).1 = []) : rawPairs ds = [] := by
  by_contra hne
  cases hp : rawPairs ds with
  | nil => exact hne hp
  | cons p ps =>
      rw [parseDeclarationBlock_fst, hp] at h
      exact foldInsert_ne_nil ps [(p.1, p.2)] (by simp) (by simpa [foldInsert] using h)

theorem eventsOfSels_nil_ev (sels : List String) (sel : String) :
    eventsOfSels sels sel [] = [] := by
  induction sels with
  | nil => rfl
  | cons s rest ih =>
      simp only [eventsOfSels, List.flatMap_cons] at *
      rw [ih]
      by_cases h : (pyStrip s == sel && pyStrip s != "") = true <;> simp [h]

/-- Effect of the per-selector step on a scope dict, seen through
`lookupPropDict`. -/
theorem lookupPropDict_addSelToDict (d : List (String × CSSRule)) (stats : Stats)
    (s : String) (ds : List DeclNode) (sel prop : String)
    (hds : declNamesOk ds = true) :
    lookupPropDict (addSelToDict d stats s (parseDeclarationBlock ds).1).1 sel prop =
      oplus
        (lastWins (if pyStrip s == sel && pyStrip s != "" then rawDeclEvents ds else []) prop)
        (lookupPropDict d sel prop) := by
  by_cases hs : pyStrip s = ""
  · have hb : (pyStrip s == "") = true := by simp [hs]
    simp only [addSelToDict, hb, if_true]
    have hcond : (pyStrip s == sel && pyStrip s != "") = false := by simp [hs]
    rw [hcond]
    simp [lastWins, oplus]
  · have hb : (pyStrip s == "") = false := by simp [hs]
    have hdict : (addSelToDict d stats s (parseDeclarationBlock ds).1).1 =
        insertOD d (pyStrip s)
          (applyProps
            (match lookupOD d (pyStrip s) with
              | some r => r
              | none => mkRule (pyStrip s))
            (parseDeclarationBlock ds).1) := by
      simp only [addSelToDict, hb, Bool.false_eq_true, if_false]
    rw [hdict, lookupPropDict_eq_bind, lookupPropDict_eq_bind, lookupOD_insertOD]
    by_cases hsel : sel = pyStrip s
    · have hcond : (pyStrip s == sel && pyStrip s != "") = true := by
        simp [hsel, bne, hb]
      rw [if_pos hsel, hcond, if_pos rfl, hsel]
      cases hl : lookupOD d (pyStrip s) with
      | some r =>
          simp only [Option.some_bind]
          rw [lookup_applyProps _ ds prop hds]
      | none =>
          simp only [Option.some_bind, Option.none_bind]
          rw [lookup_applyProps _ ds prop hds]
          simp [mkRule, lookupOD, oplus_none_right]
    · rw [if_neg hsel]
      have hps : (pyStrip s == sel) = false := by
        simp only [beq_eq_false_iff_ne, ne_eq]
        exact fun h => hsel h.symm
      have hcond : (pyStrip s == sel && pyStrip s != "") = false := by simp [hps]
      rw [hcond]
      simp [lastWins, oplus]

/-- Effect of the whole selector loop, seen through `lookupPropDict`. -/
theorem lookupPropDict_processSelList (sels : List String) (d : List (String × CSSRule))
    (stats : Stats) (ds : List DeclNode) (sel prop : String)
    (hds : declNamesOk ds = true) :
    lookupPropDict (processSelList d stats sels (parseDeclarationBlock ds).1).1 sel prop =
      oplus (lastWins (eventsOfSels sels sel (rawDeclEvents ds)) prop)
        (lookupPropDict d sel prop) := by
  induction sels generalizing d stats with
  | nil => simp [processSelList, eventsOfSels, lastWins, oplus]
  | cons s rest ih =>
      have step : processSelList d stats (s :: rest) (parseDeclarationBlock ds).1 =
          processSelList (addSelToDict d stats s (parseDeclarationBlock ds).1).1
            (addSelToDict d stats s (parseDeclarationBlock ds).1).2 rest
            (parseDeclarationBlock ds).1 := rfl
      rw [step, ih, lookupPropDict_addSelToDict d stats s ds sel prop hds]
      have hev : eventsOfSels (s :: rest) sel (rawDeclEvents ds) =
          (if pyStrip s == sel && pyStrip s != "" then rawDeclEvents ds else []) ++
            eventsOfSels rest sel (rawDeclEvents ds) := by
        simp [eventsOfSels]
      rw [hev, lastWins_append, oplus_assoc]

theorem lookupProp_stats (st : CState) (stats2 : Stats) (scope : Option String)
    (sel prop : String) :
    lookupProp { st with stats := stats2 } scope sel prop = lookupProp st scope sel prop := by
  cases scope <;> rfl

theorem lookupProp_none_eq (st : CState) (sel prop : String) :
    lookupProp st none sel prop = lookupPropDict st.rules sel prop := rfl

theorem lookupProp_some_eq (st : CState) (c2 sel prop : String) :
    lookupProp st (some c2) sel prop =
      lookupPropDict ((lookupOD st.mediaQueries c2).getD []) sel prop := rfl

theorem lookupProp_update_mq (st : CState)
    (mq2 : List (String × List (String × CSSRule))) (stats2 : Stats)
    (c2 sel prop : String) :
    lookupProp { st with mediaQueries := mq2, stats := stats2 } (some c2) sel prop =
      lookupPropDict ((lookupOD mq2 c2).getD []) sel prop := rfl

theorem getD_lookup_setdefault (mq : List (String × List (String × CSSRule)))
    (c : String) :
    (lookupOD (if mq.any (fun kv => kv.1 == c) then mq else mq ++ [(c, [])]) c).getD [] =
      (lookupOD mq c).getD [] := by
  cases hany : mq.any (fun kv => kv.1 == c) with
  | true => simp
  | false =>
      rw [if_neg (by simp), lookupOD_append_single, lookupOD_eq_none_of_any_false hany]
      simp [oplus]

theorem lookup_setdefault_ne (mq : List (String × List (String × CSSRule)))
    (c c2 : String) (h : c2 ≠ c) :
    lookupOD (if mq.any (fun kv => kv.1 == c) then mq else mq ++ [(c, [])]) c2 =
      lookupOD mq c2 := by
  cases hany : mq.any (fun kv => kv.1 == c) with
  | true => simp
  | false =>
      rw [if_neg (by simp), lookupOD_append_single, if_neg h]
      exact oplus_none_right _

/-- The effect of `process_qualified_rule` on the stored properties of
any `(scope, selector, property)`, as a last-wins overlay of the rule's
declaration events. -/
theorem lookupProp_processQualifiedRule (st : CState) (selText : String)
    (ds : List DeclNode) (mc : Option String) (scope : Option String) (sel prop : String)
    (hds : declNamesOk ds = true) :
    lookupProp (processQualifiedRule st selText ds mc) scope sel prop =
      oplus (lastWins (eventsOfQualified selText ds mc scope sel) prop)
        (lookupProp st scope sel prop) := by
  by_cases hsel0 : (pyStrip (cleanTok selText) == "") = true
  · have hL : processQualifiedRule st selText ds mc =
        { st with stats := { st.stats with rulesParsed := st.stats.rulesParsed + 1 } } := by
      simp only [processQualifiedRule, hsel0, if_true]
    have hR : eventsOfQualified selText ds mc scope sel = [] := by
      simp only [eventsOfQualified, hsel0, if_true]
    rw [hL, hR, lookupProp_stats]
    rfl
  · have hsel0f : (pyStrip (cleanTok selText) == "") = false := by simpa using hsel0
    by_cases hpd : (parseDeclarationBlock ds).1.isEmpty = true
    · have hL : processQualifiedRule st selText ds mc =
          { st with stats :=
            { st.stats with
              rulesParsed := st.stats.rulesParsed + 1,
              parseErrors := st.stats.parseErrors + (parseDeclarationBlock ds).2 } } := by
        simp only [processQualifiedRule, hsel0f, Bool.false_eq_true, if_false, hpd, if_true]
      have hraw : rawDeclEvents ds = [] := by
        unfold rawDeclEvents
        rw [rawPairs_eq_nil_of_parse_nil (by simpa [List.isEmpty_iff] using hpd)]
        rfl
      have hR : eventsOfQualified selText ds mc scope sel = [] := by
        simp only [eventsOfQualified, hsel0f, Bool.false_eq_true, if_false, hraw,
          eventsOfSels_nil_ev]
        split <;> rfl
      rw [hL, hR, lookupProp_stats]
      rfl
    · have hpdf : (parseDeclarationBlock ds).1.isEmpty = false := by simpa using hpd
      -- the three storage branches
      cases mc with
      | none =>
          have hL : processQualifiedRule st selText ds none =
              { st with
                rules := (processSelList st.rules
                  { st.stats with
                    rulesParsed := st.stats.rulesParsed + 1,
                    parseErrors := st.stats.parseErrors + (parseDeclarationBlock ds).2 }
                  (splitSelectors (pyStrip (cleanTok selText)))
                  (parseDeclarationBlock ds).1).1,
                stats := (processSelList st.rules
                  { st.stats with
                    rulesParsed := st.stats.rulesParsed + 1,
                    parseErrors := st.stats.parseErrors + (parseDeclarationBlock ds).2 }
                  (splitSelectors (pyStrip (cleanTok selText)))
                  (parseDeclarationBlock ds).1).2 } := by
            simp only [processQualifiedRule, hsel0f, Bool.false_eq_true, if_false, hpdf]
          rw [hL]
          cases scope with
          | none =>
              have hR : eventsOfQualified selText ds none none sel =
                  eventsOfSels (splitSelectors (pyStrip (cleanTok selText))) sel
                    (rawDeclEvents ds) := by
                simp only [eventsOfQualified, hsel0f, Bool.false_eq_true, if_false, scopeOf]
                try simp
              rw [hR]
              exact lookupPropDict_processSelList _ _ _ _ _ _ hds
          | some c =>
              have hR : eventsOfQualified selText ds none (some c) sel = [] := by
                simp only [eventsOfQualified, hsel0f, Bool.false_eq_true, if_false, scopeOf]
                rw [if_neg (by simp)]
              rw [hR]
              rfl
      | some c =>
          by_cases hc : (c == "") = true
          · have hce : c = "" := by simpa using hc
            have hL : processQualifiedRule st selText ds (some c) =
                { st with
                  rules := (processSelList st.rules
                    { st.stats with
                      rulesParsed := st.stats.rulesParsed + 1,
                      parseErrors := st.stats.parseErrors + (parseDeclarationBlock ds).2 }
                    (splitSelectors (pyStrip (cleanTok selText)))
                    (parseDeclarationBlock ds).1).1,
                  stats := (processSelList st.rules
                    { st.stats with
                      rulesParsed := st.stats.rulesParsed + 1,
                      parseErrors := st.stats.parseErrors + (parseDeclarationBlock ds).2 }
                    (splitSelectors (pyStrip (cleanTok selText)))
                    (parseDeclarationBlock ds).1).2 } := by
              simp only [processQualifiedRule, hsel0f, Bool.false_eq_true, if_false, hpdf, hc,
                if_true]
            rw [hL]
            cases scope with
            | none =>
                have hR : eventsOfQualified selText ds (some c) none sel =
                    eventsOfSels (splitSelectors (pyStrip (cleanTok selText))) sel
                      (rawDeclEvents ds) := by
                  simp only [eventsOfQualified, hsel0f, Bool.false_eq_true, if_false, scopeOf,
                    hc, if_true]
                  try simp
                rw [hR]
                exact lookupPropDict_processSelList _ _ _ _ _ _ hds
            | some c2 =>
                have hR : eventsOfQualified selText ds (some c) (some c2) sel = [] := by
                  simp only [eventsOfQualified, hsel0f, Bool.false_eq_true, if_false, scopeOf,
                    hc, if_true]
                  rw [if_neg (by simp)]
                rw [hR]
                rfl
          · have hcf : (c == "") = false := by simpa using hc
            have hL : processQualifiedRule st selText ds (some c) =
                { st with
                  mediaQueries := insertOD
                    (if st.mediaQueries.any (fun kv => kv.1 == c) then st.mediaQueries
                      else st.mediaQueries ++ [(c, [])]) c
                    (processSelList
                      ((lookupOD
                        (if st.mediaQueries.any (fun kv => kv.1 == c) then st.mediaQueries
                          else st.mediaQueries ++ [(c, [])]) c).getD [])
                      { st.stats with
                        rulesParsed := st.stats.rulesParsed + 1,
                        parseErrors := st.stats.parseErrors + (parseDeclarationBlock ds).2 }
                      (splitSelectors (pyStrip (cleanTok selText)))
                      (parseDeclarationBlock ds).1).1,
                  stats := (processSelList
                      ((lookupOD
                        (if st.mediaQueries.any (fun kv => kv.1 == c) then st.mediaQueries
                          else st.mediaQueries ++ [(c, [])]) c).getD [])
                      { st.stats with
                        rulesParsed := st.stats.rulesParsed + 1,
                        parseErrors := st.stats.parseErrors + (parseDeclarationBlock ds).2 }
                      (splitSelectors (pyStrip (cleanTok selText)))
                      (parseDeclarationBlock ds).1).2 } := by
              simp only [processQualifiedRule, hsel0f, Bool.false_eq_true, if_false, hpdf, hcf]
            rw [hL]
            cases scope with
            | none =>
                have hR : eventsOfQualified selText ds (some c) none sel = [] := by
                  simp only [eventsOfQualified, hsel0f, Bool.false_eq_true, if_false, scopeOf,
                    hcf]
                  rw [if_neg (by simp)]
                rw [hR]
                rfl
            | some c2 =>
                by_cases hc2 : c2 = c
                · subst hc2
                  have hR : eventsOfQualified selText ds (some c2) (some c2) sel =
                      eventsOfSels (splitSelectors (pyStrip (cleanTok selText))) sel
                        (rawDeclEvents ds) := by
                    simp only [eventsOfQualified, hsel0f, Bool.false_eq_true, if_false,
                      scopeOf, hcf]
                    try simp
                  rw [hR, lookupProp_update_mq, lookupProp_some_eq, lookupOD_insertOD,
                    if_pos rfl]
                  simp only [Option.getD_some]
                  rw [lookupPropDict_processSelList _ _ _ _ _ _ hds, getD_lookup_setdefault]
                · have hR : eventsOfQualified selText ds (some c) (some c2) sel = [] := by
                    simp only [eventsOfQualified, hsel0f, Bool.false_eq_true, if_false,
                      scopeOf, hcf, Bool.false_eq_true, if_false]
                    rw [if_neg (by simp only [Option.some.injEq]; exact fun h => hc2 h.symm)]
                  rw [hR, lookupProp_update_mq, lookupProp_some_eq, lookupOD_insertOD,
                    if_neg hc2, lookup_setdefault_ne st.mediaQueries c c2 hc2]
                  rfl

theorem lookupProp_atRules_stats (st : CState) (ar2 : List AtEntry) (stats2 : Stats)
    (scope : Option String) (sel prop : String) :
    lookupProp { st with atRules := ar2, stats := stats2 } scope sel prop =
      lookupProp st scope sel prop := by
  cases scope <;> rfl

/-- The qualified-children loop of the media branch of
`process_at_rule`, seen through `lookupProp`. -/
theorem lookupProp_processMediaChildren (children : List Node) (st : CState)
    (cond : String) (scope : Option String) (sel prop : String)
    (h : children.all
      (fun m =>
        match m with
        | .qualified _ ds => declNamesOk ds
        | _ => true) = true) :
    lookupProp
      (children.foldl
        (fun s n =>
          match n with
          | .qualified selT ds => processQualifiedRule s selT ds (some cond)
          | _ => s)
        st) scope sel prop =
      oplus
        (lastWins
          (children.flatMap
            (fun m =>
              match m with
              | .qualified selT ds => eventsOfQualified selT ds (some cond) scope sel
              | _ => []))
          prop)
        (lookupProp st scope sel prop) := by
  induction children generalizing st with
  | nil => rfl
  | cons m rest ih =>
      rw [List.all_cons, Bool.and_eq_true] at h
      rw [List.foldl_cons, List.flatMap_cons, lastWins_append]
      cases m with
      | qualified selT ds =>
          rw [ih _ h.2, lookupProp_processQualifiedRule _ _ _ _ _ _ _ h.1, oplus_assoc]
      | atRule kw prel content ser =>
          rw [ih _ h.2, show lastWins [] prop = none from rfl, oplus_none_right]
      | err =>
          rw [ih _ h.2, show lastWins [] prop = none from rfl, oplus_none_right]

/-- The effect of one top-level node on the stored properties of any
`(scope, selector, property)`. -/
theorem lookupProp_processNode (st : CState) (n : Node) (scope : Option String)
    (sel prop : String) (hn : nodeNamesOk n = true) :
    lookupProp (processNode st n none) scope sel prop =
      oplus (lastWins (eventsOfNode n scope sel) prop) (lookupProp st scope sel prop) := by
  cases n with
  | qualified selT ds =>
      exact lookupProp_processQualifiedRule st selT ds none scope sel prop
        (by simpa [nodeNamesOk] using hn)
  | err =>
      have hL : processNode st .err none =
          { st with stats := { st.stats with parseErrors := st.stats.parseErrors + 1 } } := rfl
      rw [hL, lookupProp_stats]
      rfl
  | atRule kw prel content ser =>
      have hpn : processNode st (.atRule kw prel content ser) none =
          processAtRule st kw prel content ser := rfl
      rw [hpn]
      by_cases hkw : (kw == "media") = true
      · have hL : processAtRule st kw prel content ser =
            (content.getD []).foldl
              (fun s n =>
                match n with
                | .qualified selT ds =>
                    processQualifiedRule s selT ds (some (pyStrip (cleanTok prel)))
                | _ => s)
              { st with stats :=
                { st.stats with mediaQueries := st.stats.mediaQueries + 1 } } := by
          simp only [processAtRule, hkw, if_true]
        have hR : eventsOfNode (.atRule kw prel content ser) scope sel =
            (content.getD []).flatMap
              (fun m =>
                match m with
                | .qualified selT ds =>
                    eventsOfQualified selT ds (some (pyStrip (cleanTok prel))) scope sel
                | _ => []) := by
          simp only [eventsOfNode, hkw, if_true]
        rw [hL, hR, lookupProp_processMediaChildren _ _ _ _ _ _
          (by simpa [nodeNamesOk] using hn), lookupProp_stats]
      · have hkwf : (kw == "media") = false := by simpa using hkw
        have hR : eventsOfNode (.atRule kw prel content ser) scope sel = [] := by
          simp only [eventsOfNode, hkwf, Bool.false_eq_true, if_false]
        rw [hR]
        by_cases hkf : (kw == "keyframes") = true
        · have hL : processAtRule st kw prel content ser =
              (if st.atRules.any
                  (fun ar => ar.keyword == "keyframes" &&
                    ar.name == some (pyStrip (cleanTok prel))) then
                { st with
                  atRules := replaceKF st.atRules (pyStrip (cleanTok prel)) ser,
                  stats := { st.stats with atRules := st.stats.atRules + 1 } }
              else
                { st with
                  atRules := st.atRules ++ [⟨kw, some (pyStrip (cleanTok prel)), ser⟩],
                  stats := { st.stats with atRules := st.stats.atRules + 1 } }) := by
            simp only [processAtRule, hkwf, Bool.false_eq_true, if_false, hkf, if_true]
          rw [hL]
          split <;> (rw [lookupProp_atRules_stats]; try rfl)
        · have hkff : (kw == "keyframes") = false := by simpa using hkf
          have hL : processAtRule st kw prel content ser =
              { st with
                atRules := st.atRules ++ [⟨kw, none, ser⟩],
                stats := { st.stats with atRules := st.stats.atRules + 1 } } := by
            simp only [processAtRule, hkwf, hkff, Bool.false_eq_true, if_false]
          rw [hL, lookupProp_atRules_stats]
          rfl

/-- The effect of a whole node list on the stored properties of any
`(scope, selector, property)`. -/
theorem lookupProp_processNodes (nodes : List Node) (st : CState)
    (scope : Option String) (sel prop : String) (h : wellFormedNames nodes = true) :
    lookupProp (processNodes st nodes) scope sel prop =
      oplus (lastWins (declEvents nodes scope sel) prop) (lookupProp st scope sel prop) := by
  induction nodes generalizing st with
  | nil => rfl
  | cons n rest ih =>
      rw [wellFormedNames, List.all_cons, Bool.and_eq_true] at h
      have step : processNodes st (n :: rest) = processNodes (processNode st n none) rest := rfl
      have hsplit : declEvents (n :: rest) scope sel =
          eventsOfNode n scope sel ++ declEvents rest scope sel := by
        simp [declEvents]
      rw [step, ih _ h.2, lookupProp_processNode _ _ _ _ _ h.1, hsplit, lastWins_append,
        oplus_assoc]

/-- C1: for every scope (the top-level scope or any media condition)
and every individual selector, after the whole stylesheet is processed
the stored `Rule` for that `(selector, scope)` pair maps each
lowercased property name to the value of the last declaration for that
property encountered under that selector in that scope: the stored
property map is exactly the last-wins view of the declaration events,
so every source declaration not overwritten by a later same-property
declaration in the same `(selector, scope)` pair is present with its
correct value.  `wellFormedNames` is the tinycss2 invariant that
lowercased declaration names carry no surrounding whitespace. -/
theorem C1_process_last_wins (nodes : List Node) (scope : Option String)
    (sel prop : String) (h : wellFormedNames nodes = true) :
    lookupProp (processStylesheet nodes) scope sel prop =
      lastWins (declEvents nodes scope sel) prop := by
  have base : lookupProp initState scope sel prop = none := by
    cases scope <;> rfl
  rw [processStylesheet, lookupProp_processNodes nodes initState scope sel prop h, base,
    oplus_none_right]

/-- A stylesheet exercising C1: a block, a media block with a selector
list, and a later overwrite of `color` under `.a`. -/
def demoC1 : List Node :=
  [ .qualified ".a" [.decl "Color" "red" false, .decl "color" "blue" false],
    .atRule "media" "(max-width: 600px)"
      (some [.qualified ".a, .b" [.decl "margin" "0" true]]) "",
    .qualified " .a " [.decl "COLOR" "green" false] ]

theorem C1_process_last_wins_witness :
    wellFormedNames demoC1 = true ∧
      lookupProp (processStylesheet demoC1) none ".a" "color" = some "green" ∧
      lastWins (declEvents demoC1 none ".a") "color" = some "green" :=
  ⟨rfl, (C1_process_last_wins demoC1 none ".a" "color" rfl).trans (by decide), by decide⟩

/-! ## C10: at-rules nested in a media block are silently discarded -/

/-- C10: for every at-rule nested inside a media block's content, the
compiler silently discards it: only qualified-rule children of a media
block are processed, so processing the block with the nested at-rule
present yields exactly the same compiler state — all three stores and
every statistics counter — as processing the block without it. -/
theorem C10_nested_atRule_discarded (st : CState) (cond ser : String)
    (xs ys : List Node) (n : Node) (h : isAtRuleNode n = true) :
    processNode st (.atRule "media" cond (some (xs ++ n :: ys)) ser) none =
      processNode st (.atRule "media" cond (some (xs ++ ys)) ser) none := by
  cases n with
  | qualified selT ds => simp [isAtRuleNode] at h
  | err => simp [isAtRuleNode] at h
  | atRule kw2 prel2 content2 ser2 =>
      show processAtRule st "media" cond (some (xs ++ .atRule kw2 prel2 content2 ser2 :: ys)) ser
          = processAtRule st "media" cond (some (xs ++ ys)) ser
      simp only [processAtRule, if_pos rfl, Option.getD_some, List.foldl_append,
        List.foldl_cons]

def demoC10q : Node := Node.qualified ".a" [.decl "color" "red" false]

def demoC10n : Node := Node.atRule "keyframes" "spin" none "@keyframes spin \x7b\x7d"

theorem C10_nested_atRule_discarded_witness :
    isAtRuleNode demoC10n = true ∧
      processNode initState
          (.atRule "media" "(max-width: 600px)" (some [demoC10q, demoC10n]) "") none =
        processNode initState
          (.atRule "media" "(max-width: 600px)" (some [demoC10q]) "") none :=
  ⟨rfl, C10_nested_atRule_discarded initState "(max-width: 600px)" "" [demoC10q] [] demoC10n rfl⟩

/-! ## C3: `split_selectors` -/

theorem splitSelAux_impl_raw (chars : List Char) (prev : Option Char) (inStr : Bool)
    (qc : Option Char) (depth : Int) (current : List Char) :
    splitSelAuxImpl chars prev inStr qc depth current =
      ((splitSelAuxRaw chars prev inStr qc depth current).map
        (fun l => pyStrip (String.mk l))).filter (fun s => s != "") := by
  induction chars generalizing prev inStr qc depth current with
  | nil =>
      simp only [splitSelAuxImpl, splitSelAuxRaw, List.map_cons, List.map_nil,
        List.filter_cons, List.filter_nil]
      by_cases h : (pyStrip (String.mk current.reverse) == "") = true
      · simp [h, bne]
      · simp [bne, (by simpa using h : (pyStrip (String.mk current.reverse) == "") = false)]
  | cons c rest ih =>
      simp only [splitSelAuxImpl, splitSelAuxRaw]
      split_ifs <;>
        first
        | exact absurd rfl (by assumption)
        | exact ih _ _ _ _ _
        | (rw [ih _ _ _ _ _]
           simp [List.map_cons, List.filter_cons, bne, *])

/-- C3: `split_selectors` splits only at commas at bracket depth 0 and
outside string literals (`splitSelRaw` performs exactly those splits,
keeping every raw piece), then strips each piece and drops empty
pieces; in particular the two concrete examples from the spec. -/
theorem C3_split_selectors :
    (∀ s : String, splitSelectors s =
      ((splitSelRaw s).map (fun p => pyStrip p)).filter (fun p => p != "")) ∧
    splitSelectors "a, b(x,y), c" = ["a", "b(x,y)", "c"] ∧
    splitSelectors "a[title=\"x,y\"], b" = ["a[title=\"x,y\"]", "b"] := by
  refine ⟨fun s => ?_, by decide, by decide⟩
  rw [splitSelectors, splitSelRaw, List.map_map, splitSelAux_impl_raw]
  rfl

/-! ## C5: final cleanup of the output text -/

theorem noTripleAux_collapseAux (l : List Char) (n : Nat) :
    noTripleAux (collapseAux l n) 0 = true := by
  induction l generalizing n with
  | nil =>
      have h3 : min n 2 = 0 ∨ min n 2 = 1 ∨ min n 2 = 2 := by omega
      rcases h3 with h | h | h <;> simp [collapseAux, h, noTripleAux, List.replicate]
  | cons c cs ih =>
      by_cases hc : (c == '\n') = true
      · simp only [collapseAux, hc, if_true]
        exact ih _
      · have hcf : (c == '\n') = false := by simpa using hc
        simp only [collapseAux, hcf, Bool.false_eq_true, if_false]
        have h3 : min n 2 = 0 ∨ min n 2 = 1 ∨ min n 2 = 2 := by omega
        rcases h3 with h | h | h <;>
          simp [h, List.replicate, noTripleAux, hcf, ih 0]

theorem noTripleAux_append_nl (x : List Char) (k : Nat)
    (hx : noTripleAux x k = true)
    (hlast : x ≠ [] → x.getLast? ≠ some '\n')
    (hk : x = [] → k ≤ 1) :
    noTripleAux (x ++ ['\n']) k = true := by
  induction x generalizing k with
  | nil =>
      have hk2 : k ≤ 1 := hk rfl
      simp only [List.nil_append, noTripleAux, beq_self_eq_true, if_true]
      rw [if_neg (by omega)]
  | cons c cs ih =>
      by_cases hc : (c == '\n') = true
      · simp only [noTripleAux, hc, if_true] at hx ⊢
        by_cases hk3 : k + 1 ≥ 3
        · rw [if_pos hk3] at hx
          exact absurd hx (by simp)
        · rw [if_neg hk3] at hx ⊢
          cases cs with
          | nil =>
              exfalso
              have hcc : c = '\n' := by simpa using hc
              exact hlast (by simp) (by simp [hcc])
          | cons d ds =>
              refine ih _ hx (fun _ => ?_) (by simp)
              have := hlast (by simp)
              simpa [List.getLast?_cons_cons] using this
      · have hcf : (c == '\n') = false := by simpa using hc
        simp only [noTripleAux, hcf, Bool.false_eq_true, if_false] at hx ⊢
        cases cs with
        | nil =>
            simp only [List.nil_append, noTripleAux, beq_self_eq_true, if_true]
            rw [if_neg (by omega)]
        | cons d ds =>
            refine ih _ hx (fun _ => ?_) (by simp)
            have := hlast (by simp)
            simpa [List.getLast?_cons_cons] using this

theorem finalClean_ok (s : String) :
    noTripleNewline (finalClean s) = true ∧
      (finalClean s).data.getLast? = some '\n' := by
  unfold finalClean
  by_cases he : endsNlStr (collapseBlankLines s) = true
  · rw [if_pos he]
    exact ⟨noTripleAux_collapseAux _ _, by simpa [endsNlStr] using he⟩
  · rw [if_neg (by simpa using he)]
    have hd : (collapseBlankLines s ++ "\n").data = (collapseBlankLines s).data ++ ['\n'] := rfl
    constructor
    · show noTripleAux (collapseBlankLines s ++ "\n").data 0 = true
      rw [hd]
      refine noTripleAux_append_nl _ 0 (noTripleAux_collapseAux _ _) (fun _ => ?_) (by simp)
      have : endsNlStr (collapseBlankLines s) = false := by simpa using he
      simpa [endsNlStr] using this
    · rw [hd, List.getLast?_concat]

/-- C5 counterexample: on the empty stylesheet the generated output
ends with two newline characters (the header block's blank line), so
the character immediately before the final newline is itself a
newline, contradicting "ends with exactly one trailing newline". -/
theorem C5_counterexample :
    (generateOutput (processStylesheet [])).data.getLast? = some '\n' ∧
      (generateOutput (processStylesheet [])).data.dropLast.getLast? = some '\n' :=
  ⟨by decide, by decide⟩

/-- C5 amended: for every compiler state, the text returned by
`generate_output` contains no run of 3 or more consecutive newline
characters, and its final character is a newline — but not necessarily
exactly one trailing newline: the character before the final newline
may itself be a newline (sections end with a blank line). -/
theorem C5_amended (st : CState) :
    noTripleNewline (generateOutput st) = true ∧
      (generateOutput st).data.getLast? = some '\n' :=
  finalClean_ok (assembleOutput st)

/-! ## C7: safe-mode alphabetical sorting -/

theorem lookupOD_map_value {α β : Type} (l : List (String × α)) (f : α → β) (k : String) :
    lookupOD (l.map (fun kv => (kv.1, f kv.2))) k = (lookupOD l k).map f := by
  induction l with
  | nil => rfl
  | cons kv rest ih =>
      simp only [List.map_cons, lookupOD]
      by_cases h : kv.1 = k
      · simp [h]
      · simp [h, ih]

theorem applySafeSort_dangerous (d : List (String × CSSRule)) :
    (applySafeSort d).filter (fun kv => isDangerous kv.1) =
      d.filter (fun kv => isDangerous kv.1) := by
  rw [applySafeSort, sortDictAlpha, List.filter_append]
  have h1 : (d.filter (fun kv => isDangerous kv.1)).filter (fun kv => isDangerous kv.1) =
      d.filter (fun kv => isDangerous kv.1) :=
    List.filter_eq_self.mpr (fun a ha => (List.mem_filter.mp ha).2)
  have hperm := (List.perm_insertionSort (alphaLe (α := CSSRule))
    (d.filter (fun kv => !isDangerous kv.1))).filter (fun kv => isDangerous kv.1)
  have h0 : (d.filter (fun kv => !isDangerous kv.1)).filter
      (fun kv => isDangerous kv.1) = [] := by
    rw [List.filter_eq_nil_iff]
    intro a ha hd
    have := (List.mem_filter.mp ha).2
    rw [hd] at this
    simp at this
  rw [h1]
  rw [h0] at hperm
  rw [List.Perm.eq_nil hperm, List.append_nil]

theorem applySafeSort_safe_sorted (d : List (String × CSSRule)) :
    List.Pairwise (fun a b : String × CSSRule => pyLower a.1 ≤ pyLower b.1)
      ((applySafeSort d).filter (fun kv => !isDangerous kv.1)) := by
  rw [applySafeSort, sortDictAlpha, List.filter_append]
  have h0 : (d.filter (fun kv => isDangerous kv.1)).filter
      (fun kv => !isDangerous kv.1) = [] := by
    rw [List.filter_eq_nil_iff]
    intro a ha hd
    have := (List.mem_filter.mp ha).2
    rw [Bool.not_eq_eq_eq_not] at hd
    simp only [Bool.not_true] at hd
    rw [hd] at this
    simp at this
  rw [h0, List.nil_append]
  have hall : (List.insertionSort alphaLe (d.filter (fun kv => !isDangerous kv.1))).filter
      (fun kv => !isDangerous kv.1) =
      List.insertionSort alphaLe (d.filter (fun kv => !isDangerous kv.1)) := by
    refine List.filter_eq_self.mpr (fun a ha => ?_)
    have hmem := (List.perm_insertionSort (alphaLe (α := CSSRule))
      (d.filter (fun kv => !isDangerous kv.1))).mem_iff.mp ha
    exact (List.mem_filter.mp hmem).2
  rw [hall]
  exact List.sorted_insertionSort alphaLe _

/-- C7: with alphabetical ordering enabled in safe mode, `sort_rules`
preserves the relative source order of all selectors containing a
dangerous pseudo-class pattern, in every scope (the dangerous sublist
of each scope dict is unchanged), while the remaining selectors are
pairwise ordered case-insensitively by selector text. -/
theorem C7_safe_sort (st : CState) (scope : Option String) :
    (scopeDict (sortRules true st) scope).filter (fun kv => isDangerous kv.1) =
      (scopeDict st scope).filter (fun kv => isDangerous kv.1) ∧
    List.Pairwise (fun a b : String × CSSRule => pyLower a.1 ≤ pyLower b.1)
      ((scopeDict (sortRules true st) scope).filter (fun kv => !isDangerous kv.1)) := by
  have hsort : sortRules true st =
      { st with
        rules := applySafeSort st.rules,
        mediaQueries := st.mediaQueries.map (fun kv => (kv.1, applySafeSort kv.2)) } := rfl
  rw [hsort]
  cases scope with
  | none => exact ⟨applySafeSort_dangerous st.rules, applySafeSort_safe_sorted st.rules⟩
  | some c =>
      have hd : scopeDict
          { st with
            rules := applySafeSort st.rules,
            mediaQueries := st.mediaQueries.map (fun kv => (kv.1, applySafeSort kv.2)) }
          (some c) = ((lookupOD st.mediaQueries c).map applySafeSort).getD [] := by
        show (lookupOD (st.mediaQueries.map (fun kv => (kv.1, applySafeSort kv.2))) c).getD []
            = ((lookupOD st.mediaQueries c).map applySafeSort).getD []
        rw [lookupOD_map_value]
      have hsd : scopeDict st (some c) = (lookupOD st.mediaQueries c).getD [] := rfl
      rw [hd, hsd]
      cases hl : lookupOD st.mediaQueries c with
      | none => exact ⟨rfl, by simp⟩
      | some d => exact ⟨applySafeSort_dangerous d, applySafeSort_safe_sorted d⟩

/-! ## C8: ordering inside the width sections -/

theorem mem_sortedGroup_key (merged : List (String × List (String × CSSRule)))
    (g : MediaGroup) (t : Int × String × List (String × CSSRule))
    (ht : t ∈ sortedGroup merged g) : t.1 = sortKeyOfCond t.2.1 := by
  have h2 := (List.perm_insertionSort (widthLe (α := String × List (String × CSSRule)))
    ((bucketOf merged g).map (fun kv => (sortKeyOfCond kv.1, kv.1, kv.2)))).mem_iff.mp ht
  rcases List.mem_map.mp h2 with ⟨kv, _, he⟩
  rw [← he]

theorem sortedGroup_conds_pairwise (merged : List (String × List (String × CSSRule)))
    (g : MediaGroup) :
    List.Pairwise (fun a b : String => sortKeyOfCond a ≤ sortKeyOfCond b)
      ((sortedGroup merged g).map (fun t => t.2.1)) := by
  have hsorted : List.Pairwise widthLe (sortedGroup merged g) :=
    List.sorted_insertionSort (widthLe (α := String × List (String × CSSRule))) _
  rw [List.pairwise_map]
  refine hsorted.imp_of_mem ?_
  intro a b ha hb hr
  have hka := mem_sortedGroup_key merged g a ha
  have hkb := mem_sortedGroup_key merged g b hb
  rw [← hka, ← hkb]
  exact hr

/-- C8 amended: within each emitted media-query group (desktop, mobile,
other), the conditions appear sorted by ascending sort key, where the
key is `-w` for a `max-width` match (widest first), `+w` for a
`min-width` match (narrowest first), and `0` when no width is
extractable — so a condition without an extractable width sorts after
all `max-width`-keyed conditions (negative keys) and before all
positively-keyed `min-width` conditions, not first in its group. -/
theorem C8_sorted_by_key (st : CState) :
    List.Pairwise (fun a b : String => sortKeyOfCond a ≤ sortKeyOfCond b)
      ((sortedGroup (mergeMediaQueries st.mediaQueries) MediaGroup.desktop).map
        (fun t => t.2.1)) ∧
    List.Pairwise (fun a b : String => sortKeyOfCond a ≤ sortKeyOfCond b)
      ((sortedGroup (mergeMediaQueries st.mediaQueries) MediaGroup.mobile).map
        (fun t => t.2.1)) ∧
    List.Pairwise (fun a b : String => sortKeyOfCond a ≤ sortKeyOfCond b)
      ((sortedGroup (mergeMediaQueries st.mediaQueries) MediaGroup.other).map
        (fun t => t.2.1)) :=
  ⟨sortedGroup_conds_pairwise _ _, sortedGroup_conds_pairwise _ _,
    sortedGroup_conds_pairwise _ _⟩

/-- Input whose two media conditions both land in the "other" group:
a no-width condition first in source order, then a `max-width: 2000px`
condition. -/
def demoC8 : List Node :=
  [ .atRule "media" "(orientation: landscape)"
      (some [.qualified ".a" [.decl "color" "red" false]]) "",
    .atRule "media" "(max-width: 2000px)"
      (some [.qualified ".b" [.decl "color" "blue" false]]) "" ]

set_option maxRecDepth 8192 in
/-- C8 counterexample: both conditions are classified into the other
group, `"(orientation:landscape)"` has no extractable width, yet the
emitted order puts the `max-width` condition (sort key `-2000`) before
the no-width condition (sort key `0`) — the claim's "every condition
from which no width can be extracted is placed first in its group,
before all conditions with an extractable width" is false. -/
theorem C8_counterexample :
    classifyCondition "(orientation:landscape)" = MediaGroup.other ∧
    classifyCondition "(max-width:2000px)" = MediaGroup.other ∧
    searchWidthKey "(orientation:landscape)" = none ∧
    searchWidthKey "(max-width:2000px)" = some (true, 2000) ∧
    mediaCondsInOrder (generateOutput (processStylesheet demoC8)) =
      ["(max-width:2000px)", "(orientation:landscape)"] :=
  ⟨rfl, rfl, rfl, by decide, by decide⟩

/-! ## C9: tablet-range conditions are dropped -/

theorem dropLit_some {p s r : List Char} (h : dropLit p s = some r) : s = p ++ r := by
  induction p generalizing s with
  | nil =>
      simp only [dropLit, Option.some.injEq] at h
      simp [h]
  | cons a ps ih =>
      cases s with
      | nil => simp [dropLit] at h
      | cons c cs =>
          simp only [dropLit] at h
          by_cases hc : (c == a) = true
          · rw [if_pos hc] at h
            have := ih h
            have hca : c = a := by simpa using hc
            simp [hca, this]
          · rw [if_neg hc] at h
            simp at h

theorem listContains_of_split (p : List Char) :
    ∀ (pre t : List Char), listContains (pre ++ p ++ t) p = true := by
  intro pre
  induction pre with
  | nil =>
      intro t
      rw [List.nil_append, listContains.eq_def,
        if_pos (List.isPrefixOf_iff_prefix.mpr (List.prefix_append p t))]
  | cons c cs ih =>
      intro t
      rw [List.cons_append, List.cons_append, listContains.eq_def]
      by_cases h : p.isPrefixOf (c :: (cs ++ p ++ t)) = true
      · rw [if_pos h]
      · rw [if_neg h]
        exact ih t

theorem contains_of_searchMax {c : String} {w : Nat}
    (h : searchMaxWidth c = some w) : containsSubstr c "max-width" = true := by
  unfold searchMaxWidth at h
  unfold containsSubstr
  have key : ∀ l : List Char, searchMaxAux l = some w →
      listContains l "max-width".data = true := by
    intro l
    induction l with
    | nil => intro h2; simp [searchMaxAux] at h2
    | cons a rest ih =>
        intro h2
        rw [searchMaxAux] at h2
        cases htry : tryLitDigits "max-width:".data (a :: rest) with
        | some v =>
            unfold tryLitDigits at htry
            cases hdrop : dropLit "max-width:".data (a :: rest) with
            | none => rw [hdrop] at htry; simp at htry
            | some r =>
                have hsplit : a :: rest = "max-width:".data ++ r := dropLit_some hdrop
                have hsplit2 : a :: rest = "max-width".data ++ (':' :: r) := by
                  rw [hsplit]
                  rfl
                rw [hsplit2]
                have := listContains_of_split "max-width".data [] (':' :: r)
                simpa using this
        | none =>
            rw [htry] at h2
            have := ih h2
            rw [listContains.eq_def]
            split <;> simp [this]
  exact key c.data h

theorem mem_bucket_conds (merged : List (String × List (String × CSSRule)))
    (g : MediaGroup) (c : String)
    (h : c ∈ (bucketOf merged g).map (fun kv => kv.1)) : classifyCondition c = g := by
  rcases List.mem_map.mp h with ⟨kv, hkv, he⟩
  have hcls := (List.mem_filter.mp hkv).2
  rw [← he]
  simpa using hcls

theorem mem_sortedGroup_conds (merged : List (String × List (String × CSSRule)))
    (g : MediaGroup) (c : String)
    (h : c ∈ (sortedGroup merged g).map (fun t => t.2.1)) : classifyCondition c = g := by
  rcases List.mem_map.mp h with ⟨t, ht, he⟩
  have h2 := (List.perm_insertionSort (widthLe (α := String × List (String × CSSRule)))
    ((bucketOf merged g).map (fun kv => (sortKeyOfCond kv.1, kv.1, kv.2)))).mem_iff.mp ht
  rcases List.mem_map.mp h2 with ⟨kv, hkv, he2⟩
  have hcls := (List.mem_filter.mp hkv).2
  rw [← he, ← he2]
  simpa using hcls

/-- Every condition emitted as a `@media` block belongs to one of the
five emitted groups — never to the tablet group. -/
theorem emittedConds_not_tablet (st : CState) (c : String) (hc : c ∈ emittedConds st) :
    classifyCondition c ≠ MediaGroup.tablet := by
  unfold emittedConds at hc
  cases hmq : st.mediaQueries.isEmpty with
  | true =>
      rw [hmq] at hc
      simp at hc
  | false =>
      rw [hmq] at hc
      simp only [Bool.false_eq_true, if_false, List.mem_append] at hc
      rcases hc with (((h | h) | h) | h) | h
      · rw [mem_sortedGroup_conds _ _ _ h]
        simp
      · rw [mem_sortedGroup_conds _ _ _ h]
        simp
      · rw [mem_sortedGroup_conds _ _ _ h]
        simp
      · rw [mem_bucket_conds _ _ _ h]
        simp
      · rw [mem_bucket_conds _ _ _ h]
        simp

/-- C9 amended: a media condition whose first `max-width` match yields
`768 < w ≤ 1024` is classified into the tablet group and emitted in no
section — provided the condition contains neither `print` nor
`prefers-` as a substring, since those classifications take precedence
and are emitted. -/
theorem C9_tablet_dropped (st : CState) (c : String) (w : Nat)
    (hprint : containsSubstr c "print" = false)
    (hpref : containsSubstr c "prefers-" = false)
    (hw : searchMaxWidth c = some w) (h768 : 768 < w) (h1024 : w ≤ 1024) :
    c ∉ emittedConds st := by
  intro hmem
  have hmax := contains_of_searchMax hw
  have hclass : classifyCondition c = MediaGroup.tablet := by
    simp only [classifyCondition, hprint, hpref, hmax, hw, Bool.false_eq_true, if_false,
      if_true]
    rw [if_neg (by omega), if_pos h1024]
  exact emittedConds_not_tablet st c hmem hclass

def demoC9 : List Node :=
  [ .atRule "media" "print and (max-width: 900px)"
      (some [.qualified ".a" [.decl "color" "red" false]]) "" ]

set_option maxRecDepth 8192 in
/-- C9 counterexample: the condition `print and (max-width:900px)` has
extracted max-width 900 with `768 < 900 ≤ 1024`, yet its rules are NOT
absent from the output: the `print` substring classifies it into the
print group, so it is emitted — the claim quantifying over *every*
condition with an extracted tablet-range max-width is false. -/
theorem C9_counterexample :
    searchMaxWidth "print and(max-width:900px)" = some 900 ∧
    emittedConds (processStylesheet demoC9) = ["print and(max-width:900px)"] ∧
    containsSubstr (generateOutput (processStylesheet demoC9))
      "@media print and(max-width:900px)" = true :=
  ⟨by decide, by decide, by decide⟩

def demoC9w : List Node :=
  [ .atRule "media" "(max-width: 900px)"
      (some [.qualified ".a" [.decl "color" "red" false]]) "" ]

/-! ## C4: keyframes deduplication -/

/-- The entry is a keyframes entry named `n`. -/
def isKFNamed (n : String) (ar : AtEntry) : Bool :=
  ar.keyword == "keyframes" && ar.name == some n

def kfNameOf (ar : AtEntry) : String := ar.name.getD ""

def isKFEntry (ar : AtEntry) : Bool := ar.keyword == "keyframes"

/-- The names of the keyframes entries of a list, in order. -/
def kfNames (l : List AtEntry) : List String := (l.filter isKFEntry).map kfNameOf

/-- The content patch that later occurrences apply to a kept keyframes
entry: its content becomes the content of the last occurrence of its
name among the remaining entries, when there is one. -/
def patchEntry (rest : List AtEntry) (ar : AtEntry) : AtEntry :=
  if ar.keyword == "keyframes" then
    match lastKFContent rest (kfNameOf ar) with
    | some cnt => { ar with content := cnt }
    | none => ar
  else ar

/-- A keyframes entry carries a (structured) name. -/
def wfEntry (ar : AtEntry) : Bool := !(ar.keyword == "keyframes") || ar.name.isSome

theorem atRules_processQualifiedRule (st : CState) (selText : String)
    (ds : List DeclNode) (mc : Option String) :
    (processQualifiedRule st selText ds mc).atRules = st.atRules := by
  unfold processQualifiedRule
  dsimp only
  repeat' split
  all_goals rfl

theorem atRules_mediaFold (children : List Node) (st : CState) (cond : String) :
    (children.foldl
      (fun s n =>
        match n with
        | .qualified selT ds => processQualifiedRule s selT ds (some cond)
        | _ => s)
      st).atRules = st.atRules := by
  induction children generalizing st with
  | nil => rfl
  | cons m rest ih =>
      rw [List.foldl_cons]
      cases m with
      | qualified selT ds =>
          rw [ih]
          exact atRules_processQualifiedRule _ _ _ _
      | atRule kw prel content ser => exact ih _
      | err => exact ih _

/-- `self.at_rules` accumulates via `collectStep` over the raw at-rule
entry stream. -/
theorem atRules_processNodes (nodes : List Node) : ∀ st : CState,
    (processNodes st nodes).atRules = (rawAtEntries nodes).foldl collectStep st.atRules := by
  induction nodes with
  | nil => intro st; rfl
  | cons n rest ih =>
      intro st
      have step : processNodes st (n :: rest) = processNodes (processNode st n none) rest := rfl
      rw [step, ih]
      cases n with
      | qualified selT ds =>
          have h1 : (processNode st (.qualified selT ds) none).atRules = st.atRules :=
            atRules_processQualifiedRule st selT ds none
          have h2 : rawAtEntries (Node.qualified selT ds :: rest) = rawAtEntries rest := by
            simp [rawAtEntries]
          rw [h2, h1]
      | err =>
          have h1 : (processNode st .err none).atRules = st.atRules := rfl
          rw [h1]
          rfl
      | atRule kw prel content ser =>
          by_cases hm : (kw == "media") = true
          · have h1 : (processNode st (.atRule kw prel content ser) none).atRules =
                st.atRules := by
              show (processAtRule st kw prel content ser).atRules = st.atRules
              unfold processAtRule
              rw [if_pos hm]
              exact atRules_mediaFold _ _ _
            have hmp : kw = "media" := by simpa using hm
            have h2 : rawAtEntries (Node.atRule kw prel content ser :: rest) =
                rawAtEntries rest := by
              simp [rawAtEntries, hmp]
            rw [h2, h1]
          · have hmf : (kw == "media") = false := by simpa using hm
            by_cases hk : (kw == "keyframes") = true
            · have h1 : (processNode st (.atRule kw prel content ser) none).atRules =
                  collectStep st.atRules ⟨kw, some (pyStrip (cleanTok prel)), ser⟩ := by
                show (processAtRule st kw prel content ser).atRules = _
                unfold processAtRule collectStep
                rw [if_neg (by simp [hmf]), if_pos hk]
                simp only [hk, if_true, Option.getD_some]
                split <;> rfl
              have hkp : kw = "keyframes" := by simpa using hk
              have h2 : rawAtEntries (Node.atRule kw prel content ser :: rest) =
                  ⟨kw, some (pyStrip (cleanTok prel)), ser⟩ :: rawAtEntries rest := by
                simp [rawAtEntries, hkp]
              rw [h2, List.foldl_cons, h1]
            · have hkf : (kw == "keyframes") = false := by simpa using hk
              have h1 : (processNode st (.atRule kw prel content ser) none).atRules =
                  collectStep st.atRules ⟨kw, none, ser⟩ := by
                show (processAtRule st kw prel content ser).atRules = _
                unfold processAtRule collectStep
                rw [if_neg (by simp [hmf]), if_neg (by simp [hkf])]
                simp only [hkf, Bool.false_eq_true, if_false]
              have hm2 : ¬ kw = "media" := by simpa using hm
              have hk2 : ¬ kw = "keyframes" := by simpa using hk
              have h2 : rawAtEntries (Node.atRule kw prel content ser :: rest) =
                  ⟨kw, none, ser⟩ :: rawAtEntries rest := by
                simp [rawAtEntries, hm2, hk2]
              rw [h2, List.foldl_cons, h1]

theorem patchEntry_nil (ar : AtEntry) : patchEntry [] ar = ar := by
  by_cases h : (ar.keyword == "keyframes") = true
  · simp only [patchEntry, h, if_true]
    have hn : lastKFContent [] (kfNameOf ar) = none := rfl
    rw [hn]
  · simp only [patchEntry, h, Bool.false_eq_true, if_false]

theorem lastKFContent_cons_ne (ar : AtEntry) (rest : List AtEntry) (n : String)
    (h : (ar.keyword == "keyframes" && ar.name == some n) = false) :
    lastKFContent (ar :: rest) n = lastKFContent rest n := by
  unfold lastKFContent
  rw [List.filter_cons, if_neg (by simp [h])]

theorem lastKFContent_cons_match (ar : AtEntry) (rest : List AtEntry) (n : String)
    (h : (ar.keyword == "keyframes" && ar.name == some n) = true) :
    lastKFContent (ar :: rest) n = some ((lastKFContent rest n).getD ar.content) := by
  unfold lastKFContent
  rw [List.filter_cons, if_pos (by simp [h]), List.getLast?_cons]
  cases hgl : (List.filter (fun b => b.keyword == "keyframes" && b.name == some n)
      rest).getLast? with
  | none => simp [hgl]
  | some b => simp [hgl]

theorem mem_replaceKF {ar : AtEntry} {acc : List AtEntry} {n c : String}
    (h : ar ∈ replaceKF acc n c) :
    ar ∈ acc ∨ ∃ e ∈ acc, ar = { e with content := c } := by
  induction acc with
  | nil => simp [replaceKF] at h
  | cons e rest ih =>
      unfold replaceKF at h
      split at h
      · rcases List.mem_cons.mp h with h1 | h1
        · exact Or.inr ⟨e, List.mem_cons_self _ _, h1⟩
        · exact Or.inl (List.mem_cons_of_mem _ h1)
      · rcases List.mem_cons.mp h with h1 | h1
        · exact Or.inl (by simp [h1])
        · rcases ih h1 with h2 | h2
          · exact Or.inl (List.mem_cons_of_mem _ h2)
          · rcases h2 with ⟨e2, he2, hee⟩
            exact Or.inr ⟨e2, List.mem_cons_of_mem _ he2, hee⟩

theorem replaceKF_eq_map (acc : List AtEntry) (n c : String)
    (huniq : (acc.filter (isKFNamed n)).length ≤ 1) :
    replaceKF acc n c =
      acc.map (fun e => if isKFNamed n e then { e with content := c } else e) := by
  induction acc with
  | nil => rfl
  | cons e rest ih =>
      unfold replaceKF
      by_cases he : (e.keyword == "keyframes" && e.name == some n) = true
      · rw [if_pos he]
        have hlen : (rest.filter (isKFNamed n)).length = 0 := by
          rw [List.filter_cons, if_pos (by simpa [isKFNamed] using he)] at huniq
          simp only [List.length_cons] at huniq
          omega
        have hrest : rest.map
            (fun e => if isKFNamed n e then { e with content := c } else e) = rest := by
          have hnil := List.length_eq_zero.mp hlen
          have hnone : ∀ x ∈ rest, isKFNamed n x = false := by
            intro x hx
            by_contra hxx
            have hxt : isKFNamed n x = true := by simpa using hxx
            have : x ∈ rest.filter (isKFNamed n) := List.mem_filter.mpr ⟨hx, hxt⟩
            rw [hnil] at this
            simp at this
          calc rest.map (fun e => if isKFNamed n e then { e with content := c } else e)
              = rest.map id := List.map_congr_left (fun a ha => by simp [hnone a ha])
            _ = rest := List.map_id _
        rw [List.map_cons, if_pos (by simpa [isKFNamed] using he), hrest]
      · rw [if_neg he]
        have hef : isKFNamed n e = false := by simpa [isKFNamed] using he
        have huniq2 : (rest.filter (isKFNamed n)).length ≤ 1 := by
          rw [List.filter_cons, if_neg (by simp [isKFNamed, he])] at huniq
          exact huniq
        rw [List.map_cons, if_neg (by simp [hef]), ih huniq2]

theorem beq_comm_str (a b : String) : (a == b) = (b == a) := by
  by_cases h : a = b
  · simp [h]
  · simp [h, Ne.symm h]

theorem patchEntry_cons_eq (ar : AtEntry) (rest2 : List AtEntry) (e : AtEntry)
    (h : (e.keyword == "keyframes") = true →
      (ar.keyword == "keyframes" && ar.name == some (kfNameOf e)) = false) :
    patchEntry (ar :: rest2) e = patchEntry rest2 e := by
  unfold patchEntry
  by_cases hekf : (e.keyword == "keyframes") = true
  · rw [if_pos hekf, if_pos hekf, lastKFContent_cons_ne _ _ _ (h hekf)]
  · rw [if_neg hekf, if_neg hekf]

theorem kf_name_of_wf {e : AtEntry} (hwfe : wfEntry e = true)
    (hekf : (e.keyword == "keyframes") = true) : ∃ m, e.name = some m := by
  unfold wfEntry at hwfe
  rw [hekf] at hwfe
  simp only [Bool.not_true, Bool.false_or] at hwfe
  exact Option.isSome_iff_exists.mp hwfe

/-- The key invariant argument for C4: folding `collectStep`
(the compiler's in-place keyframes replacement) over the remaining raw
entries equals patching the already-collected entries with the last
contents from the remaining stream, followed by the specification-side
first-position/last-content deduplication of the remaining stream. -/
theorem collectFold_eq_spec (rest : List AtEntry) : ∀ (acc : List AtEntry)
    (seen : List String),
    (∀ m : String, acc.any (isKFNamed m) = seen.contains m) →
    (∀ m : String, (acc.filter (isKFNamed m)).length ≤ 1) →
    (∀ e ∈ acc, wfEntry e = true) →
    (∀ e ∈ rest, wfEntry e = true) →
    rest.foldl collectStep acc = acc.map (patchEntry rest) ++ specFirstLast seen rest := by
  induction rest with
  | nil =>
      intro acc seen hseen huniq hwfa hwfr
      have hmap : acc.map (patchEntry []) = acc := by
        calc acc.map (patchEntry [])
            = acc.map id := List.map_congr_left (fun a _ => patchEntry_nil a)
          _ = acc := List.map_id _
      simp [specFirstLast, hmap]
  | cons ar rest2 ih =>
      intro acc seen hseen huniq hwfa hwfr
      have hwfar : wfEntry ar = true := hwfr ar (List.mem_cons_self _ _)
      have hwfr2 : ∀ e ∈ rest2, wfEntry e = true :=
        fun e he => hwfr e (List.mem_cons_of_mem _ he)
      rw [List.foldl_cons]
      by_cases hk : (ar.keyword == "keyframes") = true
      · -- keyframes entry
        obtain ⟨n, hname⟩ := kf_name_of_wf hwfar hk
        have hmatch : (ar.keyword == "keyframes" && ar.name == some n) = true := by
          simp [hk, hname]
        have hnameOf : kfNameOf ar = n := by simp [kfNameOf, hname]
        by_cases hc : seen.contains n = true
        · -- name already collected: in-place replacement
          have hany : acc.any (isKFNamed n) = true := by rw [hseen n]; exact hc
          have hstep : collectStep acc ar = replaceKF acc n ar.content := by
            unfold collectStep
            rw [if_pos hk, if_pos (by rw [hname]; exact hany), hname, Option.getD_some]
          have hrmap := replaceKF_eq_map acc n ar.content (huniq n)
          have hupd_inv : ∀ (m : String) (e : AtEntry),
              isKFNamed m (if isKFNamed n e then { e with content := ar.content } else e) =
                isKFNamed m e := by
            intro m e
            by_cases he : isKFNamed n e = true
            · rw [if_pos he]
              rfl
            · rw [if_neg he]
          have hseen2 : ∀ m, (replaceKF acc n ar.content).any (isKFNamed m) =
              seen.contains m := by
            intro m
            rw [hrmap, List.any_map]
            have heq : ((isKFNamed m) ∘
                (fun e => if isKFNamed n e then { e with content := ar.content } else e)) =
                isKFNamed m := funext (fun e => hupd_inv m e)
            rw [heq]
            exact hseen m
          have huniq2 : ∀ m, ((replaceKF acc n ar.content).filter (isKFNamed m)).length ≤ 1 := by
            intro m
            rw [hrmap, List.filter_map]
            have heq : ((isKFNamed m) ∘
                (fun e => if isKFNamed n e then { e with content := ar.content } else e)) =
                isKFNamed m := funext (fun e => hupd_inv m e)
            rw [heq, List.length_map]
            exact huniq m
          have hwfa2 : ∀ e ∈ replaceKF acc n ar.content, wfEntry e = true := by
            intro e he
            rcases mem_replaceKF he with h1 | h1
            · exact hwfa e h1
            · rcases h1 with ⟨e2, he2, hee⟩
              have := hwfa e2 he2
              rw [hee]
              simpa [wfEntry] using this
          rw [hstep, ih _ seen hseen2 huniq2 hwfa2 hwfr2]
          have hsfl : specFirstLast seen (ar :: rest2) = specFirstLast seen rest2 := by
            unfold specFirstLast
            rw [if_pos hk]
            simp only [hname, Option.getD_some]
            rw [if_pos hc, specFirstLast.eq_def]
          have hmap : (replaceKF acc n ar.content).map (patchEntry rest2) =
              acc.map (patchEntry (ar :: rest2)) := by
            rw [hrmap, List.map_map]
            refine List.map_congr_left (fun e he => ?_)
            show patchEntry rest2
                (if isKFNamed n e then { e with content := ar.content } else e) =
              patchEntry (ar :: rest2) e
            by_cases hke : isKFNamed n e = true
            · have hpair : (e.keyword == "keyframes") = true ∧ (e.name == some n) = true := by
                have h2 := hke
                unfold isKFNamed at h2
                simpa using h2
              have hkek : (e.keyword == "keyframes") = true := hpair.1
              have hken : e.name = some n := by simpa using hpair.2
              have hkenameOf : kfNameOf e = n := by simp [kfNameOf, hken]
              rw [if_pos hke]
              unfold patchEntry
              have hkup : (({ e with content := ar.content } : AtEntry).keyword ==
                  "keyframes") = true := by simpa using hkek
              rw [if_pos hkup, if_pos hkek]
              have hkN2 : kfNameOf { e with content := ar.content } = n := by
                simp [kfNameOf, hken]
              rw [hkN2, hkenameOf,
                lastKFContent_cons_match ar rest2 n hmatch]
              cases hl : lastKFContent rest2 n with
              | some cnt => rfl
              | none => rfl
            · have hkef : isKFNamed n e = false := by simpa using hke
              rw [if_neg hke]
              symm
              refine patchEntry_cons_eq ar rest2 e (fun hekf => ?_)
              obtain ⟨m, hm⟩ := kf_name_of_wf (hwfa e he) hekf
              have hmn : (m == n) = false := by
                have := hkef
                unfold isKFNamed at this
                rw [hekf, Bool.true_and, hm] at this
                simpa using this
              have hknm : kfNameOf e = m := by simp [kfNameOf, hm]
              rw [hknm, hname, hk, Bool.true_and]
              simpa [beq_comm_str n m] using hmn
          rw [hmap, hsfl]
        · -- fresh name: appended, recorded in `seen`
          have hcf : seen.contains n = false := by simpa using hc
          have hany : acc.any (isKFNamed n) = false := by rw [hseen n]; exact hcf
          have hstep : collectStep acc ar = acc ++ [ar] := by
            unfold collectStep
            have hcond : (acc.any fun e =>
                e.keyword == "keyframes" && e.name == ar.name) = false := by
              rw [hname]
              exact hany
            rw [if_pos hk, if_neg (by rw [hcond]; exact Bool.false_ne_true)]
          have hseen2 : ∀ m, (acc ++ [ar]).any (isKFNamed m) = (n :: seen).contains m := by
            intro m
            rw [List.any_append]
            have h1 : ([ar].any (isKFNamed m)) = (n == m) := by
              simp [isKFNamed, hk, hname]
            rw [h1, hseen m, List.contains_cons]
            by_cases hmn : m = n
            · simp [hmn]
            · have h2 : (n == m) = false := by simpa using Ne.symm hmn
              have h3 : (m == n) = false := by simpa using hmn
              rw [h2, h3, Bool.or_false, Bool.false_or]
          have huniq2 : ∀ m, ((acc ++ [ar]).filter (isKFNamed m)).length ≤ 1 := by
            intro m
            rw [List.filter_append]
            by_cases hmn : m = n
            · have hnil : acc.filter (isKFNamed m) = [] := by
                rw [List.filter_eq_nil_iff]
                intro e hemem hpe
                have := List.any_eq_false.mp (hmn ▸ hany) e hemem
                exact this hpe
              rw [hnil, List.nil_append, List.filter_cons]
              by_cases hfa : isKFNamed m ar = true
              · rw [if_pos hfa]
                simp
              · rw [if_neg hfa]
                simp
            · have hnil : [ar].filter (isKFNamed m) = [] := by
                simp [isKFNamed, hname, Ne.symm hmn]
              rw [hnil, List.append_nil]
              exact huniq m
          have hwfa2 : ∀ e ∈ acc ++ [ar], wfEntry e = true := by
            intro e he
            rcases List.mem_append.mp he with h1 | h1
            · exact hwfa e h1
            · have : e = ar := by simpa using h1
              rw [this]
              exact hwfar
          rw [hstep, ih _ (n :: seen) hseen2 huniq2 hwfa2 hwfr2, List.map_append]
          have hsfl : specFirstLast seen (ar :: rest2) =
              { ar with content := (lastKFContent (ar :: rest2) n).getD ar.content } ::
                specFirstLast (n :: seen) rest2 := by
            unfold specFirstLast
            rw [if_pos hk]
            simp only [hname, Option.getD_some]
            rw [if_neg hc, specFirstLast.eq_def]
          have hpacc : acc.map (patchEntry rest2) = acc.map (patchEntry (ar :: rest2)) := by
            refine List.map_congr_left (fun e he => ?_)
            symm
            refine patchEntry_cons_eq ar rest2 e (fun hekf => ?_)
            obtain ⟨m, hm⟩ := kf_name_of_wf (hwfa e he) hekf
            have hkef : isKFNamed n e = false := by
              have := List.any_eq_false.mp hany e he
              simpa using this
            have hmn : (m == n) = false := by
              have := hkef
              unfold isKFNamed at this
              rw [hekf, Bool.true_and, hm] at this
              simpa using this
            have hknm : kfNameOf e = m := by simp [kfNameOf, hm]
            rw [hknm, hname, hk, Bool.true_and]
            simpa [beq_comm_str n m] using hmn
          have hpar : [ar].map (patchEntry rest2) =
              [{ ar with content := (lastKFContent (ar :: rest2) n).getD ar.content }] := by
            simp only [List.map_cons, List.map_nil]
            congr 1
            unfold patchEntry
            rw [if_pos hk, hnameOf,
              lastKFContent_cons_match ar rest2 n hmatch]
            cases hl : lastKFContent rest2 n with
            | some cnt => rfl
            | none => rfl
          rw [hpar, hsfl, hpacc, List.append_assoc]
          rfl
      · -- not a keyframes entry: plain append
        have hstep : collectStep acc ar = acc ++ [ar] := by
          unfold collectStep
          rw [if_neg hk]
        have hseen2 : ∀ m, (acc ++ [ar]).any (isKFNamed m) = seen.contains m := by
          intro m
          rw [List.any_append]
          have h1 : ([ar].any (isKFNamed m)) = false := by simp [isKFNamed, hk]
          rw [h1, Bool.or_false]
          exact hseen m
        have huniq2 : ∀ m, ((acc ++ [ar]).filter (isKFNamed m)).length ≤ 1 := by
          intro m
          rw [List.filter_append]
          have h1 : [ar].filter (isKFNamed m) = [] := by simp [isKFNamed, hk]
          rw [h1, List.append_nil]
          exact huniq m
        have hwfa2 : ∀ e ∈ acc ++ [ar], wfEntry e = true := by
          intro e he
          rcases List.mem_append.mp he with h1 | h1
          · exact hwfa e h1
          · have : e = ar := by simpa using h1
            rw [this]
            exact hwfar
        rw [hstep, ih _ seen hseen2 huniq2 hwfa2 hwfr2, List.map_append]
        have hsfl : specFirstLast seen (ar :: rest2) = ar :: specFirstLast seen rest2 := by
          unfold specFirstLast
          rw [if_neg hk, specFirstLast.eq_def]
        have hpacc : acc.map (patchEntry rest2) = acc.map (patchEntry (ar :: rest2)) := by
          refine List.map_congr_left (fun e he => ?_)
          symm
          exact patchEntry_cons_eq ar rest2 e (fun _ => by simp [hk])
        have hpar : [ar].map (patchEntry rest2) = [ar] := by
          simp only [List.map_cons, List.map_nil]
          congr 1
          unfold patchEntry
          rw [if_neg hk]
        rw [hpar, hsfl, hpacc, List.append_assoc]
        rfl

/-- Unfolding equation of `specFirstLast` on a cons cell. -/
theorem sfl_cons (seen : List String) (ar : AtEntry) (rest : List AtEntry) :
    specFirstLast seen (ar :: rest) =
      if ar.keyword == "keyframes" then
        if seen.contains (ar.name.getD "") then specFirstLast seen rest
        else
          { ar with content :=
              (lastKFContent (ar :: rest) (ar.name.getD "")).getD ar.content } ::
            specFirstLast ((ar.name.getD "") :: seen) rest
      else ar :: specFirstLast seen rest := rfl

theorem mem_kfNames {m : String} {l : List AtEntry} :
    m ∈ kfNames l ↔ ∃ e, e ∈ l ∧ isKFEntry e = true ∧ kfNameOf e = m := by
  simp only [kfNames, List.mem_map, List.mem_filter]
  constructor
  · rintro ⟨e, ⟨he, hkf⟩, hn⟩
    exact ⟨e, he, hkf, hn⟩
  · rintro ⟨e, he, hkf, hn⟩
    exact ⟨e, ⟨he, hkf⟩, hn⟩

/-- Every entry of the spec-side deduplication comes from a source entry
with the same keyword and name (only contents are patched). -/
theorem sfl_entry_src : ∀ (l : List AtEntry) (seen : List String) (e : AtEntry),
    e ∈ specFirstLast seen l →
    ∃ e2, e2 ∈ l ∧ e.keyword = e2.keyword ∧ e.name = e2.name := by
  intro l
  induction l with
  | nil =>
      intro seen e he
      simp [specFirstLast] at he
  | cons ar rest ih =>
      intro seen e he
      rw [sfl_cons] at he
      by_cases hk : (ar.keyword == "keyframes") = true
      · rw [if_pos hk] at he
        by_cases hc : (seen.contains (ar.name.getD "")) = true
        · rw [if_pos hc] at he
          obtain ⟨e2, h1, h2⟩ := ih seen e he
          exact ⟨e2, List.mem_cons_of_mem _ h1, h2⟩
        · rw [if_neg hc] at he
          rcases List.mem_cons.mp he with h1 | h1
          · subst h1
            exact ⟨ar, List.mem_cons_self _ _, rfl, rfl⟩
          · obtain ⟨e2, h2, h3⟩ := ih _ e h1
            exact ⟨e2, List.mem_cons_of_mem _ h2, h3⟩
      · rw [if_neg hk] at he
        rcases List.mem_cons.mp he with h1 | h1
        · exact ⟨ar, List.mem_cons_self _ _, by rw [h1], by rw [h1]⟩
        · obtain ⟨e2, h2, h3⟩ := ih seen e h1
          exact ⟨e2, List.mem_cons_of_mem _ h2, h3⟩

/-- The keyframes names of the spec-side deduplication avoid `seen` and
are pairwise distinct. -/
theorem sfl_kfNames : ∀ (l : List AtEntry) (seen : List String),
    (∀ m ∈ kfNames (specFirstLast seen l), ¬ m ∈ seen) ∧
    (kfNames (specFirstLast seen l)).Nodup := by
  intro l
  induction l with
  | nil =>
      intro seen
      constructor
      · intro m hm
        simp [specFirstLast, kfNames] at hm
      · simp [specFirstLast, kfNames]
  | cons ar rest ih =>
      intro seen
      by_cases hk : (ar.keyword == "keyframes") = true
      · by_cases hc : (seen.contains (ar.name.getD "")) = true
        · rw [sfl_cons, if_pos hk, if_pos hc]
          exact ih seen
        · rw [sfl_cons, if_pos hk, if_neg hc]
          have hkeep : isKFEntry { ar with content :=
              (lastKFContent (ar :: rest) (ar.name.getD "")).getD ar.content } = true := by
            simpa [isKFEntry] using hk
          have hnames : kfNames ({ ar with content :=
                (lastKFContent (ar :: rest) (ar.name.getD "")).getD ar.content } ::
                specFirstLast ((ar.name.getD "") :: seen) rest) =
              (ar.name.getD "") ::
                kfNames (specFirstLast ((ar.name.getD "") :: seen) rest) := by
            unfold kfNames
            rw [List.filter_cons, if_pos hkeep, List.map_cons]
            rfl
          rw [hnames]
          obtain ⟨ihf, ihn⟩ := ih ((ar.name.getD "") :: seen)
          constructor
          · intro m hm hmseen
            rcases List.mem_cons.mp hm with h1 | h1
            · subst h1
              exact hc (by simpa using hmseen)
            · exact ihf m h1 (List.mem_cons_of_mem _ hmseen)
          · refine List.Nodup.cons ?_ ihn
            intro hmem
            exact ihf _ hmem (List.mem_cons_self _ _)
      · rw [sfl_cons, if_neg hk]
        have hnames : kfNames (ar :: specFirstLast seen rest) =
            kfNames (specFirstLast seen rest) := by
          unfold kfNames
          rw [List.filter_cons, if_neg (by unfold isKFEntry; exact hk)]
        rw [hnames]
        exact ih seen

/-- On a list whose keyframes entries all carry nonempty, pairwise
distinct structured names, the `generate_output` deduplication fold only
ever appends: no name is ever found in `seen_keyframes`. -/
theorem dedupFold_id : ∀ (l acc : List AtEntry) (idx : List (String × Nat)),
    (∀ e ∈ l, isKFEntry e = true → kfNameOf e ≠ "") →
    (kfNames l).Nodup →
    (∀ e ∈ l, isKFEntry e = true → lookupOD idx (kfNameOf e) = none) →
    (l.foldl dedupStep (acc, idx)).1 = acc ++ l := by
  intro l
  induction l with
  | nil =>
      intro acc idx _ _ _
      simp
  | cons ar rest ih =>
      intro acc idx h1 h2 h3
      rw [List.foldl_cons]
      by_cases hk : (ar.keyword == "keyframes") = true
      · have hkfe : isKFEntry ar = true := by simpa [isKFEntry] using hk
        have hne : kfNameOf ar ≠ "" := h1 ar (List.mem_cons_self _ _) hkfe
        have hn0 : (ar.name.getD "" == "") = false := by
          simpa [kfNameOf] using hne
        have hlook : lookupOD idx (ar.name.getD "") = none := by
          have := h3 ar (List.mem_cons_self _ _) hkfe
          simpa [kfNameOf] using this
        have hstep : dedupStep (acc, idx) ar =
            (acc ++ [ar], idx ++ [(ar.name.getD "", acc.length)]) := by
          unfold dedupStep
          rw [if_pos hk]
          dsimp only
          rw [hn0]
          simp only [Bool.false_eq_true, if_false]
          rw [hn0]
          simp only [Bool.false_eq_true, if_false]
          rw [hlook]
        have hnames : kfNames (ar :: rest) = kfNameOf ar :: kfNames rest := by
          unfold kfNames
          rw [List.filter_cons, if_pos hkfe, List.map_cons]
        rw [hnames] at h2
        have h2' : (kfNames rest).Nodup := (List.nodup_cons.mp h2).2
        have hnotin : kfNameOf ar ∉ kfNames rest := (List.nodup_cons.mp h2).1
        have h3' : ∀ e ∈ rest, isKFEntry e = true →
            lookupOD (idx ++ [(ar.name.getD "", acc.length)]) (kfNameOf e) = none := by
          intro e he hkfe2
          rw [lookupOD_append_single, h3 e (List.mem_cons_of_mem _ he) hkfe2]
          have hne2 : ¬ kfNameOf e = ar.name.getD "" := by
            intro heq
            have hmem := mem_kfNames.mpr ⟨e, he, hkfe2, rfl⟩
            rw [heq] at hmem
            exact hnotin hmem
          rw [if_neg hne2]
          rfl
        rw [hstep, ih (acc ++ [ar]) _
          (fun e he => h1 e (List.mem_cons_of_mem _ he)) h2' h3', List.append_assoc]
        rfl
      · have hstep : dedupStep (acc, idx) ar = (acc ++ [ar], idx) := by
          unfold dedupStep
          rw [if_neg hk]
        have hnames : kfNames (ar :: rest) = kfNames rest := by
          unfold kfNames
          rw [List.filter_cons, if_neg (by unfold isKFEntry; exact hk)]
        rw [hnames] at h2
        rw [hstep, ih (acc ++ [ar]) idx
          (fun e he => h1 e (List.mem_cons_of_mem _ he)) h2
          (fun e he => h3 e (List.mem_cons_of_mem _ he)), List.append_assoc]
        rfl

/-- `deduplicated_at_rules` is the identity on a list whose keyframes
entries carry nonempty, pairwise distinct names. -/
theorem dedupAtRules_id (l : List AtEntry)
    (h1 : ∀ e ∈ l, isKFEntry e = true → kfNameOf e ≠ "")
    (h2 : (kfNames l).Nodup) :
    dedupAtRules l = l := by
  unfold dedupAtRules
  rw [dedupFold_id l [] [] h1 h2 (fun e _ _ => rfl)]
  rfl

theorem rawAtEntries_wf (nodes : List Node) :
    ∀ e ∈ rawAtEntries nodes, wfEntry e = true := by
  intro e he
  unfold rawAtEntries at he
  rcases List.mem_filterMap.mp he with ⟨n, hn, hfe⟩
  cases n with
  | qualified selT ds =>
      have h0 : (none : Option AtEntry) = some e := hfe
      exact Option.noConfusion h0
  | err =>
      have h0 : (none : Option AtEntry) = some e := hfe
      exact Option.noConfusion h0
  | atRule kw prel content ser =>
      have hfe2 : (if (kw == "media") = true then none
          else if (kw == "keyframes") = true then
            some (⟨kw, some (pyStrip (cleanTok prel)), ser⟩ : AtEntry)
          else some (⟨kw, none, ser⟩ : AtEntry)) = some e := hfe
      by_cases hm : (kw == "media") = true
      · rw [if_pos hm] at hfe2
        exact Option.noConfusion hfe2
      · rw [if_neg hm] at hfe2
        by_cases hkf : (kw == "keyframes") = true
        · rw [if_pos hkf] at hfe2
          have he2 : e = ⟨kw, some (pyStrip (cleanTok prel)), ser⟩ :=
            (Option.some.inj hfe2).symm
          rw [he2]
          simp [wfEntry]
        · rw [if_neg hkf] at hfe2
          have he2 : e = ⟨kw, none, ser⟩ := (Option.some.inj hfe2).symm
          have hkf2 : (kw == "keyframes") = false := by simpa using hkf
          rw [he2]
          simp [wfEntry, hkf2]

/-- Under `kfNamesOk`, every raw keyframes entry carries a nonempty
name. -/
theorem rawAtEntries_names (nodes : List Node) (h : kfNamesOk nodes = true) :
    ∀ e ∈ rawAtEntries nodes, isKFEntry e = true → kfNameOf e ≠ "" := by
  intro e he hkfe
  unfold rawAtEntries at he
  rcases List.mem_filterMap.mp he with ⟨n, hn, hfe⟩
  cases n with
  | qualified selT ds =>
      have h0 : (none : Option AtEntry) = some e := hfe
      exact Option.noConfusion h0
  | err =>
      have h0 : (none : Option AtEntry) = some e := hfe
      exact Option.noConfusion h0
  | atRule kw prel content ser =>
      have hfe2 : (if (kw == "media") = true then none
          else if (kw == "keyframes") = true then
            some (⟨kw, some (pyStrip (cleanTok prel)), ser⟩ : AtEntry)
          else some (⟨kw, none, ser⟩ : AtEntry)) = some e := hfe
      have hok : (kw != "keyframes" || pyStrip (cleanTok prel) != "") = true :=
        List.all_eq_true.mp h _ hn
      by_cases hm : (kw == "media") = true
      · rw [if_pos hm] at hfe2
        exact Option.noConfusion hfe2
      · rw [if_neg hm] at hfe2
        by_cases hkf : (kw == "keyframes") = true
        · rw [if_pos hkf] at hfe2
          have he2 : e = ⟨kw, some (pyStrip (cleanTok prel)), ser⟩ :=
            (Option.some.inj hfe2).symm
          have hkw : (kw != "keyframes") = false := by simpa using hkf
          rw [hkw, Bool.false_or] at hok
          have hne : pyStrip (cleanTok prel) ≠ "" := by simpa using hok
          rw [he2]
          simpa [kfNameOf] using hne
        · rw [if_neg hkf] at hfe2
          have he2 : e = ⟨kw, none, ser⟩ := (Option.some.inj hfe2).symm
          rw [he2] at hkfe
          exact absurd hkfe hkf

/-- After processing, `self.at_rules` is exactly the spec-side
first-position/last-content deduplication of the raw at-rule stream. -/
theorem atRules_spec (nodes : List Node) :
    (processStylesheet nodes).atRules = specFirstLast [] (rawAtEntries nodes) := by
  unfold processStylesheet
  rw [atRules_processNodes]
  have h := collectFold_eq_spec (rawAtEntries nodes) [] []
    (fun m => rfl) (fun m => by simp) (fun e he => absurd he (List.not_mem_nil e))
    (rawAtEntries_wf nodes)
  have h0 : initState.atRules = [] := rfl
  rw [h0, h, List.map_nil, List.nil_append]

set_option maxRecDepth 8192 in
/-- C4: the at-rule entries that `generate_output` emits (its
`deduplicated_at_rules`, computed from the processed `self.at_rules`)
are exactly the spec-side first-position/last-content view of the raw
at-rule stream: for each keyframes name exactly one entry survives, at
the position of the first occurrence, carrying the content of the last
occurrence; the hypothesis is that every top-level `@keyframes` rule
carries a nonempty name. -/
theorem C4_keyframes_dedup (nodes : List Node) (h : kfNamesOk nodes = true) :
    dedupAtRules ((processStylesheet nodes).atRules) =
      specFirstLast [] (rawAtEntries nodes) := by
  rw [atRules_spec]
  apply dedupAtRules_id
  · intro e he hkfe
    obtain ⟨e2, he2, hkw, hnm⟩ := sfl_entry_src (rawAtEntries nodes) [] e he
    have hkfe2 : isKFEntry e2 = true := by
      unfold isKFEntry at hkfe ⊢
      rw [← hkw]
      exact hkfe
    have hne := rawAtEntries_names nodes h e2 he2 hkfe2
    unfold kfNameOf at hne ⊢
    rw [hnm]
    exact hne
  · exact (sfl_kfNames (rawAtEntries nodes) []).2

/-- Two `@keyframes spin` rules with an `@import` in between. -/
def demoC4 : List Node :=
  [ .atRule "keyframes" "spin" none
      "@keyframes spin \x7b from \x7b opacity: 0; \x7d \x7d",
    .atRule "import" "url(more.css)" none "@import url(more.css);",
    .atRule "keyframes" "spin" none
      "@keyframes spin \x7b from \x7b opacity: 1; \x7d \x7d" ]

set_option maxRecDepth 8192 in
theorem C4_keyframes_dedup_witness :
    kfNamesOk demoC4 = true ∧
    dedupAtRules ((processStylesheet demoC4).atRules) =
      specFirstLast [] (rawAtEntries demoC4) :=
  ⟨by decide, C4_keyframes_dedup demoC4 (by decide)⟩

/-! ## C2: the five-condition ordering scenario -/

/-- The stylesheet of the C2 scenario: exactly the five media
conditions of the claim, in their listed source order. -/
def demoC2 : List Node :=
  [ .atRule "media" "(min-width: 1200px)"
      (some [.qualified ".a" [.decl "color" "red" false]]) "",
    .atRule "media" "(max-width: 480px)"
      (some [.qualified ".b" [.decl "color" "green" false]]) "",
    .atRule "media" "print"
      (some [.qualified ".c" [.decl "color" "black" false]]) "",
    .atRule "media" "(prefers-color-scheme: dark)"
      (some [.qualified ".d" [.decl "color" "white" false]]) "",
    .atRule "media" "(max-width: 900px)"
      (some [.qualified ".e" [.decl "color" "gray" false]]) "" ]

set_option maxRecDepth 8192 in
set_option maxHeartbeats 2000000 in
/-- C2 counterexample: on exactly the five claimed conditions, the
`max-width: 900px` query appears nowhere in the emitted document
(768 < 900 ≤ 1024 classifies it into the never-emitted tablet group),
so the mobile section cannot contain the 480px query before the 900px
query as the claim requires. -/
theorem C2_counterexample :
    (mediaCondsInOrder (generateOutput (processStylesheet demoC2))).contains
        "(max-width:900px)" = false ∧
      containsSubstr (generateOutput (processStylesheet demoC2)) "900px" = false :=
  ⟨by decide, by decide⟩

set_option maxRecDepth 8192 in
set_option maxHeartbeats 2000000 in
/-- C2 amended: compiling the five claimed conditions emits the media
sections in the order desktop (the 1200px query), mobile (the 480px
query only — the 900px query is in the tablet range and dropped),
then the prefers-color-scheme query, then the print query as the final
section of the document. -/
theorem C2_amended :
    mediaCondsInOrder (generateOutput (processStylesheet demoC2)) =
        ["(min-width:1200px)", "(max-width:480px)", "(prefers-color-scheme:dark)", "print"] ∧
      sectionHeaders (generateOutput (processStylesheet demoC2)) =
        ["DESKTOP", "MOBILE", "PRÉFÉRENCES UTILISATEUR", "PRINT"] :=
  ⟨by decide, by decide⟩

set_option maxRecDepth 8192 in
theorem C9_tablet_dropped_witness :
    containsSubstr "(max-width:900px)" "print" = false ∧
    containsSubstr "(max-width:900px)" "prefers-" = false ∧
    searchMaxWidth "(max-width:900px)" = some 900 ∧
    "(max-width:900px)" ∉ emittedConds (processStylesheet demoC9w) :=
  ⟨by decide, by decide, by decide,
    C9_tablet_dropped (processStylesheet demoC9w) "(max-width:900px)" 900 (by decide)
      (by decide) (by decide) (by omega) (by omega)⟩

end CSSCompiler
